import Mathlib

/-!
Verification development for the iAnonymiser anonymization engine
(`src/core/anonymizer.py`, `src/core/models.py`, `src/patterns/base.py`).

Modelling conventions (shallow embedding):

* Python `str` is modelled as `List Char` (`Str` below); slicing
  `text[a:b]` is `slice`, concatenation is `++`.
* Python `dict` (insertion ordered since 3.7) is modelled as an
  association list: lookup returns the first binding, `dput` updates an
  existing binding in place and otherwise appends at the end, and
  iteration (`dict.items()`) is list order.  This reproduces CPython's
  insertion-order semantics exactly.
* The Python `re` module is external library code, not part of this
  repository.  Calls to `compiled.finditer(text)` are therefore modelled
  by an oracle (`ReOracle`): for the text under consideration the oracle
  supplies, per pattern, the list of matches (full-match span plus the
  span of every capture group, `none` for a group that did not
  participate).  `match.group(i)` is recovered as the slice of the text
  at the recorded span, which is exactly what `re` returns.  Universally
  quantified theorems quantify over all oracles (often restricted to
  well-formed ones, i.e. spans that lie inside the text, which `re`
  guarantees); concrete runs instantiate the oracle with the match lists
  the documented regexes produce on the concrete input.
* Uncaught Python exceptions are modelled with `Except Unit`; a caught
  exception is handled in place, mirroring the `try`/`except` blocks of
  the source.
* `Detection.end` is renamed `Detection.stop` (`end` is a Lean keyword).
-/

abbrev Str := List Char

/-- Python `text[a:b]` for `0 ≤ a ≤ b` (clamped like Python slicing). -/
def pySlice (t : Str) (a b : Nat) : Str := (t.drop a).take (b - a)

/-- First binding of key `k` in an association list (Python `d[k]` /
`k in d` / `d.get(k)`). -/
def pyGet {α : Type} (k : Str) : List (Str × α) → Option α
  | [] => none
  | (k', v) :: rest => if k' = k then some v else pyGet k rest

/-- Python `d[k] = v` on an insertion-ordered dict: update the existing
binding in place, otherwise append the new binding at the end. -/
def dput {α : Type} (k : Str) (v : α) : List (Str × α) → List (Str × α)
  | [] => [(k, v)]
  | (k', v') :: rest => if k' = k then (k, v) :: rest else (k', v') :: dput k v rest

/-- Decimal digit to character, as produced by Python's `format`. -/
def digitChar : Nat → Char
  | 0 => '0' | 1 => '1' | 2 => '2' | 3 => '3' | 4 => '4'
  | 5 => '5' | 6 => '6' | 7 => '7' | 8 => '8' | _ => '9'

/-- Fuel-driven digit expansion (structural recursion so that concrete
placeholders evaluate inside the kernel). -/
def natDigitsAux : Nat → Nat → List Char
  | 0, _ => []
  | fuel + 1, n =>
    if n < 10 then [digitChar n]
    else natDigitsAux fuel (n / 10) ++ [digitChar (n % 10)]

/-- Decimal digits of `n`, most significant first (Python `str(n)` for
`n ≥ 0`). -/
def natDigits (n : Nat) : List Char := natDigitsAux (n + 1) n

/-- Python `f"{n:03d}"`: decimal digits left-padded with `'0'` to width
at least 3. -/
def pad3 (n : Nat) : List Char :=
  List.replicate (3 - (natDigits n).length) '0' ++ natDigits n

/-- The placeholder string `f"[{prefix_}_{n:03d}]"` built by
`Anonymizer._get_placeholder`. -/
def mkPlaceholder (pfx : Str) (n : Nat) : Str :=
  '[' :: pfx ++ '_' :: pad3 n ++ [']']

/-- `PatternType` enum from `src/core/models.py`. -/
inductive PatternType
  | IPV4 | IPV6 | EMAIL | HOSTNAME | URL | PATH_WINDOWS | PATH_UNIX
  | UUID | MAC_ADDRESS | PHONE | API_KEY | JWT | CREDIT_CARD | DATE
  | USERNAME | SERVER_NAME | IBAN | SSN | PRIVATE_KEY | CONNECTION_STRING
  | CUSTOM
  deriving DecidableEq, Repr

open PatternType

/-- The `.value` string of each `PatternType` member. -/
def ptypeValue : PatternType → Str
  | IPV4 => "ipv4".toList
  | IPV6 => "ipv6".toList
  | EMAIL => "email".toList
  | HOSTNAME => "hostname".toList
  | URL => "url".toList
  | PATH_WINDOWS => "path_windows".toList
  | PATH_UNIX => "path_unix".toList
  | UUID => "uuid".toList
  | MAC_ADDRESS => "mac".toList
  | PHONE => "phone".toList
  | API_KEY => "api_key".toList
  | JWT => "jwt".toList
  | CREDIT_CARD => "credit_card".toList
  | DATE => "date".toList
  | USERNAME => "username".toList
  | SERVER_NAME => "server_name".toList
  | IBAN => "iban".toList
  | SSN => "ssn".toList
  | PRIVATE_KEY => "private_key".toList
  | CONNECTION_STRING => "connection_string".toList
  | CUSTOM => "custom".toList

/-- The `.name` string of each `PatternType` member. -/
def ptypeName : PatternType → Str
  | IPV4 => "IPV4".toList
  | IPV6 => "IPV6".toList
  | EMAIL => "EMAIL".toList
  | HOSTNAME => "HOSTNAME".toList
  | URL => "URL".toList
  | PATH_WINDOWS => "PATH_WINDOWS".toList
  | PATH_UNIX => "PATH_UNIX".toList
  | UUID => "UUID".toList
  | MAC_ADDRESS => "MAC_ADDRESS".toList
  | PHONE => "PHONE".toList
  | API_KEY => "API_KEY".toList
  | JWT => "JWT".toList
  | CREDIT_CARD => "CREDIT_CARD".toList
  | DATE => "DATE".toList
  | USERNAME => "USERNAME".toList
  | SERVER_NAME => "SERVER_NAME".toList
  | IBAN => "IBAN".toList
  | SSN => "SSN".toList
  | PRIVATE_KEY => "PRIVATE_KEY".toList
  | CONNECTION_STRING => "CONNECTION_STRING".toList
  | CUSTOM => "CUSTOM".toList

/-- All enum members in definition order (Python `for pt in PatternType`). -/
def patternTypeList : List PatternType :=
  [IPV4, IPV6, EMAIL, HOSTNAME, URL, PATH_WINDOWS, PATH_UNIX, UUID,
   MAC_ADDRESS, PHONE, API_KEY, JWT, CREDIT_CARD, DATE, USERNAME,
   SERVER_NAME, IBAN, SSN, PRIVATE_KEY, CONNECTION_STRING, CUSTOM]

/-- `PatternType(s)` conversion by `.value`; `none` models the
`ValueError` raised for an unknown value string. -/
def ptypeOfValue (s : Str) : Option PatternType :=
  patternTypeList.find? (fun pt => ptypeValue pt = s)

/-- `DEFAULT_PATTERNS.keys()` in insertion order
(`src/patterns/base.py`).  The regex source strings themselves live on
the `re` side of the oracle boundary; what the engine depends on is this
iteration order. -/
def DEFAULT_PATTERNS_keys : List PatternType :=
  [PRIVATE_KEY, JWT, CONNECTION_STRING, URL, EMAIL, UUID, IPV4, IPV6,
   HOSTNAME, MAC_ADDRESS, PHONE, API_KEY, PATH_WINDOWS, PATH_UNIX,
   CREDIT_CARD, DATE, IBAN, SSN, USERNAME, SERVER_NAME]

/-- `PREFIXES` table from `src/patterns/base.py`.  The table covers all
members, so `PREFIXES.get(pt, "UNKNOWN")` in `anonymize` never takes its
default. -/
def PREFIXES : PatternType → Str
  | IPV4 => "IP".toList
  | IPV6 => "IPV6".toList
  | EMAIL => "EMAIL".toList
  | HOSTNAME => "HOST".toList
  | URL => "URL".toList
  | PATH_WINDOWS => "PATH".toList
  | PATH_UNIX => "PATH".toList
  | UUID => "UUID".toList
  | MAC_ADDRESS => "MAC".toList
  | PHONE => "PHONE".toList
  | API_KEY => "KEY".toList
  | JWT => "TOKEN".toList
  | CREDIT_CARD => "CC".toList
  | DATE => "DATE".toList
  | USERNAME => "USER".toList
  | SERVER_NAME => "SERVER".toList
  | IBAN => "IBAN".toList
  | SSN => "SSN".toList
  | PRIVATE_KEY => "PRIVKEY".toList
  | CONNECTION_STRING => "CONNSTR".toList
  | CUSTOM => "VAL".toList

/-- `PATTERN_COLORS` table from `src/patterns/colors.py`. -/
def PATTERN_COLORS : PatternType → Str
  | IPV4 => "#ff6b6b".toList
  | IPV6 => "#ff8787".toList
  | EMAIL => "#4dabf7".toList
  | HOSTNAME => "#69db7c".toList
  | URL => "#38d9a9".toList
  | PATH_WINDOWS => "#ffd43b".toList
  | PATH_UNIX => "#ffe066".toList
  | UUID => "#da77f2".toList
  | MAC_ADDRESS => "#e599f7".toList
  | PHONE => "#74c0fc".toList
  | API_KEY => "#ff922b".toList
  | JWT => "#ffa94d".toList
  | CREDIT_CARD => "#f06595".toList
  | DATE => "#a9e34b".toList
  | USERNAME => "#63e6be".toList
  | SERVER_NAME => "#20c997".toList
  | IBAN => "#f783ac".toList
  | SSN => "#ff8787".toList
  | PRIVATE_KEY => "#e64980".toList
  | CONNECTION_STRING => "#fd7e14".toList
  | CUSTOM => "#868e96".toList

/-- `Detection` dataclass from `src/core/models.py` (`end` renamed to
`stop`). -/
structure Detection where
  value : Str
  pattern_type : PatternType
  start : Nat
  stop : Nat
  placeholder : Option Str := none
  deriving DecidableEq, Repr

/-- `AnonymizationResult` dataclass from `src/core/models.py`. -/
structure AnonymizationResult where
  anonymized_text : Str
  mappings : List (Str × Str)
  stats : List (Str × Nat)
  detections : List Detection
  deriving DecidableEq, Repr

/-- `PreviewResult` dataclass from `src/core/models.py`. -/
structure PreviewResult where
  detections : List Detection
  highlighted_html : Str
  stats : List (Str × Nat)
  deriving DecidableEq, Repr

/-- Mutable state of one `Anonymizer` instance (`__init__`).  Enhancer
bookkeeping (`_enhancers*`) is external plugin management and enters the
model only through the enhancer-result oracle; `_compiled_custom` stores,
for each successfully compiled custom pattern, the index of the pattern
it was compiled from together with its prefix (a compiled regex is
identified by the pattern index, its matches being supplied by the
oracle). -/
structure Anonymizer where
  mappings : List (Str × Str) := []
  reverse_mappings : List (Str × Str) := []
  counters : List (Str × Nat) := []
  stats : List (Str × Nat) := []
  enabled_patterns : PatternType → Bool := fun _ => true
  custom_patterns : List (Str × Str) := []
  preserve_list : List Str := []
  compiled_custom : List (Nat × Str) := []

/-- A fresh engine (`Anonymizer()`). -/
def Anonymizer.init : Anonymizer := {}

/-- `Anonymizer._get_placeholder`: consistent placeholder for a value,
issuing `[PREFIX_NNN]` with a per-prefix counter on first sight. -/
def Anonymizer.getPlaceholder (st : Anonymizer) (value pfx : Str) :
    Str × Anonymizer :=
  match pyGet value st.mappings with
  | some pl => (pl, st)
  | none =>
    let c := (pyGet pfx st.counters).getD 0 + 1
    let ph := mkPlaceholder pfx c
    (ph, { st with
            counters := dput pfx c st.counters
            mappings := dput value ph st.mappings
            reverse_mappings := dput ph value st.reverse_mappings })

/-- `Anonymizer._should_preserve`. -/
def Anonymizer.shouldPreserve (st : Anonymizer) (value : Str) : Bool :=
  st.preserve_list.any (fun p => (p.map Char.toLower) <:+: (value.map Char.toLower))

/-! ### The `re` oracle boundary -/

/-- One `re.Match`: the full-match span and, per capture group, the
group's span (`none` when the group did not participate in the match).
The matched strings are recovered by slicing the subject text, exactly
as `re` produces them. -/
structure RMatch where
  span : Nat × Nat
  groups : List (Option (Nat × Nat))
  deriving DecidableEq, Repr

/-- One `EnhancerResult` as consumed by `_detect_with_enhancers`
(confidence filtering happens inside the enhancer, before this point). -/
structure EnhRes where
  value : Str
  entity_type : Str
  start : Nat
  stop : Nat
  deriving DecidableEq, Repr

/-- Match results of the external `re` engine (and of the external
enhancers) on one subject text.  `catalog pt` is
`compiled.finditer(text)` for the precompiled catalog pattern of `pt`;
`catalogCompiled pt` records whether the catalog pattern compiled
(in the shipped catalog all do); `custom.get i` is `none` when custom
pattern `i` fails to compile (`re.error`) and otherwise the finditer
results of its regex; `enh` lists the surviving enhancer results in
iteration order. -/
structure ReOracle where
  catalog : PatternType → List RMatch
  catalogCompiled : PatternType → Bool := fun _ => true
  custom : List (Option (List RMatch)) := []
  enh : List EnhRes := []

/-- Span selected from a match by the capture-group handling in
`Anonymizer.detect`: the first group that is not `None`, else the whole
match (also when the group list is empty). -/
def matchSpan (m : RMatch) : Nat × Nat :=
  (m.groups.findSome? id).getD m.span

/-- `EnhancerResult.to_pattern_type_str` lookup table
(`src/enhancers/base.py`). -/
def enhancerTypeMapping : List (Str × Str) :=
  [("EMAIL_ADDRESS", "email"), ("PHONE_NUMBER", "phone"),
   ("IP_ADDRESS", "ipv4"), ("URL", "url"), ("DOMAIN_NAME", "hostname"),
   ("PERSON", "username"), ("LOCATION", "hostname"),
   ("CREDIT_CARD", "credit_card"), ("IBAN_CODE", "iban"),
   ("US_SSN", "ssn"), ("FR_SSN", "ssn"), ("DATE_TIME", "date"),
   ("NRP", "username"), ("MEDICAL_LICENSE", "api_key"),
   ("US_PASSPORT", "ssn"), ("US_DRIVER_LICENSE", "ssn"),
   ("CRYPTO", "api_key"), ("UK_NHS", "ssn"), ("PII", "username"),
   ("SECRET", "api_key"), ("API_KEY", "api_key"),
   ("PASSWORD", "api_key"), ("FQDN", "hostname"),
   ("SUBDOMAIN", "hostname"), ("DOMAIN", "hostname"), ("TLD", "hostname")
  ].map (fun pr => (pr.1.toList, pr.2.toList))

/-- `EnhancerResult.to_pattern_type_str`: map the upper-cased entity
label through the table, defaulting to `"custom"`. -/
def toPatternTypeStr (entity : Str) : Str :=
  (pyGet (entity.map Char.toUpper) enhancerTypeMapping).getD ("custom".toList)

/-- `Anonymizer._detect_with_enhancers`: convert enhancer results to
`Detection`s, dropping disabled pattern types and preserved values. -/
def Anonymizer.detectWithEnhancers (st : Anonymizer) (enh : List EnhRes) :
    List Detection :=
  enh.foldl (fun acc r =>
    if st.enabled_patterns ((ptypeOfValue (toPatternTypeStr r.entity_type)).getD CUSTOM)
        = false then acc
    else if st.shouldPreserve r.value then acc
    else acc ++ [⟨r.value, (ptypeOfValue (toPatternTypeStr r.entity_type)).getD CUSTOM,
      r.start, r.stop, none⟩]) []

/-! ### Overlap resolver (`_check_overlap_and_add` in `detect`) -/

/-- Joint state of the local lists `occupied_ranges` and `detections`
inside `Anonymizer.detect`. -/
abbrev RD := List (Nat × Nat × Detection) × List Detection

/-- The comparison loop of `_check_overlap_and_add`: walk the occupied
ranges in order; `none` means the candidate is rejected (`return
False`); otherwise return the ranges that survive (in order) together
with the detections marked for removal (in scan order — the source pops
their indices in decreasing order, i.e. removes these detections last to
first). -/
def overlapScan (start stop : Nat) :
    List (Nat × Nat × Detection) →
    Option (List (Nat × Nat × Detection) × List (Nat × Nat × Detection))
  | [] => some ([], [])
  | (s, e, ex) :: rest =>
    if stop ≤ s ∨ start ≥ e then
      -- no overlap: keep this range
      match overlapScan start stop rest with
      | none => none
      | some (k, r) => some ((s, e, ex) :: k, r)
    else if start ≤ s ∧ stop ≥ e then
      -- candidate completely contains the existing range: mark it
      match overlapScan start stop rest with
      | none => none
      | some (k, r) => some (k, (s, e, ex) :: r)
    else if s ≤ start ∧ e ≥ stop then
      -- existing range completely contains the candidate: reject
      none
    else if e - s < stop - start then
      -- partial overlap, candidate strictly longer: mark the existing
      match overlapScan start stop rest with
      | none => none
      | some (k, r) => some (k, (s, e, ex) :: r)
    else
      -- partial overlap, candidate not longer: reject
      none

/-- `_check_overlap_and_add`: on rejection the two lists are untouched;
on acceptance the marked ranges are dropped, the marked detections are
removed (last collected first, matching the decreasing-index pops;
`List.erase` removes the first equal element and is a no-op when the
element is absent, which is what the `if existing in detections` guard
achieves), and the candidate is appended to both lists. -/
def checkOverlapAndAdd (rd : RD) (start stop : Nat) (det : Detection) :
    Bool × RD :=
  match overlapScan start stop rd.1 with
  | none => (false, rd)
  | some (kept, removed) =>
    (true, (kept ++ [(start, stop, det)],
            (removed.reverse.foldl (fun ds x => ds.erase x.2.2) rd.2) ++ [det]))

/-! ### Validator (`_validate_detection`) -/

/-- Digit value of a character (`'0' ↦ 0`, …); arbitrary on
non-digits. -/
def digitVal (c : Char) : Nat := c.toNat - 48

/-- Numeric value of a digit string (most significant digit first). -/
def strVal (l : Str) : Nat := l.foldl (fun a c => 10 * a + digitVal c) 0

/-- Python `int(s)` on a string: optional surrounding spaces, optional
sign, at least one digit; `none` models the `ValueError` raised
otherwise. -/
def pyInt? (s : Str) : Option Int :=
  let t := (((s.dropWhile (· = ' ')).reverse.dropWhile (· = ' ')).reverse)
  match t with
  | '-' :: ds =>
    if ds ≠ [] ∧ ds.all Char.isDigit then some (-(strVal ds : Int)) else none
  | '+' :: ds =>
    if ds ≠ [] ∧ ds.all Char.isDigit then some (strVal ds) else none
  | ds =>
    if ds ≠ [] ∧ ds.all Char.isDigit then some (strVal ds) else none

/-- The generator `all(0 <= int(p) <= 31 for p in parts[:2])` evaluated
lazily: `int` raises (uncaught `ValueError`, modelled as `throw`) on a
non-numeric part, and evaluation stops at the first failing
comparison. -/
def allLe31 : List Str → Except Unit Bool
  | [] => pure true
  | p :: rest =>
    match pyInt? p with
    | none => throw ()
    | some x => if 0 ≤ x ∧ x ≤ 31 then allLe31 rest else pure false

/-- `Anonymizer._validate_detection`.  Note the `ipv4` branch: when the
`all(...)` test succeeds it returns `True`, and when it fails control
falls through to the final `return True` — so the 0–31 test can only
raise, never reject; only the four-part test rejects. -/
def validateDetection (value : Str) : PatternType → Except Unit Bool
  | IPV4 => do
    let parts := value.splitOn '.'
    if parts.length ≠ 4 then pure false
    else
      let b ← allLe31 (parts.take 2)
      if b then pure true else pure true
  | HOSTNAME =>
    if value.count '.' < 1 then pure false
    else if value.all (fun c => c.isDigit || c = '.') then pure false
    else pure true
  | EMAIL =>
    pure (value.contains '@' && ((value.splitOn '@').getLastD []).contains '.')
  | PHONE =>
    pure (decide (8 ≤ (value.filter Char.isDigit).length))
  | CREDIT_CARD =>
    let ds := (value.filter Char.isDigit).map digitVal
    if ds.length < 13 then pure false
    else
      let checksum : Nat := ((ds.reverse).enum.map (fun pr =>
        if pr.1 % 2 = 1 then
          (if pr.2 * 2 > 9 then pr.2 * 2 - 9 else pr.2 * 2)
        else pr.2)).sum
      pure (decide (checksum % 10 = 0))
  | PATH_UNIX =>
    if "http".toList <+: value then pure false
    else if value.count '/' < 2 then pure false
    else pure true
  | _ => pure true

/-! ### `Anonymizer.detect` -/

/-- Inner `for match in compiled.finditer(text)` loop body shared by the
catalog and custom loops: capture-group extraction, optional validation
(catalog only), preserve filter, then the overlap resolver. -/
def offerMatches (st : Anonymizer) (text : Str) (pt : PatternType)
    (withValidate : Bool) : List RMatch → RD → Except Unit RD
  | [], rd => pure rd
  | m :: rest, rd =>
    let sp := matchSpan m
    let value := pySlice text sp.1 sp.2
    match (if withValidate then validateDetection value pt else pure true :
        Except Unit Bool) with
    | .error e => .error e
    | .ok ok =>
      if ok = false then offerMatches st text pt withValidate rest rd
      else if st.shouldPreserve value then offerMatches st text pt withValidate rest rd
      else
        let det : Detection := ⟨value, pt, sp.1, sp.2, none⟩
        offerMatches st text pt withValidate rest (checkOverlapAndAdd rd sp.1 sp.2 det).2

/-- The catalog loop of `detect` (step 2): iterate
`DEFAULT_PATTERNS.keys()`, skipping disabled and uncompiled patterns. -/
def catalogLoop (st : Anonymizer) (text : Str) (orc : ReOracle) :
    List PatternType → RD → Except Unit RD
  | [], rd => pure rd
  | pt :: rest, rd =>
    if st.enabled_patterns pt = false then catalogLoop st text orc rest rd
    else if orc.catalogCompiled pt = false then catalogLoop st text orc rest rd
    else
      match offerMatches st text pt true (orc.catalog pt) rd with
      | .error e => .error e
      | .ok rd' => catalogLoop st text orc rest rd'

/-- The custom-pattern loop of `detect` (step 3), including the
`_compiled_custom` cache handling.  A compile failure (`re.error`) is
caught and the pattern skipped, but the subsequent unconditional
`self._compiled_custom[i]` lookup raises an uncaught `IndexError`
whenever the cache is shorter than `i + 1` — faithfully modelled by
`throw ()`. -/
def customLoop (st : Anonymizer) (text : Str) (orc : ReOracle) :
    Nat → List (Str × Str) → List (Nat × Str) → RD →
    Except Unit (RD × List (Nat × Str))
  | _, [], cache, rd => pure (rd, cache)
  | i, (_, pfx) :: rest, cache, rd =>
    if cache.length ≤ i then
      match (orc.custom.get? i).getD none with
      | none => customLoop st text orc (i + 1) rest cache rd
      | some _ =>
        match (cache ++ [(i, pfx)]).get? i with
        | none => throw ()
        | some pr =>
          match offerMatches st text CUSTOM false
              (((orc.custom.get? pr.1).getD none).getD []) rd with
          | .error e => .error e
          | .ok rd' => customLoop st text orc (i + 1) rest (cache ++ [(i, pfx)]) rd'
    else
      match cache.get? i with
      | none => throw ()
      | some pr =>
        match offerMatches st text CUSTOM false
            (((orc.custom.get? pr.1).getD none).getD []) rd with
        | .error e => .error e
        | .ok rd' => customLoop st text orc (i + 1) rest cache rd'

/-- Stable insertion sort by `Detection.start`, realizing
`detections.sort(key=lambda d: d.start)` (Python's sort is stable, and a
stable sort by a fixed key is uniquely determined). -/
def insertByStart (d : Detection) : List Detection → List Detection
  | [] => [d]
  | e :: rest =>
    if e.start ≤ d.start then e :: insertByStart d rest else d :: e :: rest

/-- See `insertByStart`. -/
def pySortByStart (l : List Detection) : List Detection :=
  l.foldl (fun acc d => insertByStart d acc) []

/-- `Anonymizer.detect`: enhancer detections first (dropping those
without a positive-length span), then the catalog patterns, then the
custom patterns; finally the accepted detections are sorted by start.
The returned state carries the possibly extended custom-pattern
cache. -/
def Anonymizer.detect (st : Anonymizer) (text : Str) (orc : ReOracle) :
    Except Unit (List Detection × Anonymizer) :=
  let rd1 : RD := (st.detectWithEnhancers orc.enh).foldl
    (fun rd det =>
      if det.start < det.stop then (checkOverlapAndAdd rd det.start det.stop det).2
      else rd) ([], [])
  match catalogLoop st text orc DEFAULT_PATTERNS_keys rd1 with
  | .error e => .error e
  | .ok rd2 =>
    match customLoop st text orc 0 st.custom_patterns st.compiled_custom rd2 with
    | .error e => .error e
    | .ok res => .ok (pySortByStart res.1.2, { st with compiled_custom := res.2 })

/-! ### Substitution, anonymize, deanonymize, preview -/

/-- One substitution step of `anonymize` (the body of the
`for det in reversed(detections)` loop), threading the working text, the
engine state and the list of already-processed detections (consed, so
that processing the reversed list rebuilds the original order). -/
def substituteStep (acc : Str × Anonymizer × List Detection) (det : Detection) :
    Str × Anonymizer × List Detection :=
  let pfx := PREFIXES det.pattern_type
  let ph := (acc.2.1.getPlaceholder det.value pfx).1
  let st' := (acc.2.1.getPlaceholder det.value pfx).2
  let det' := { det with placeholder := some ph }
  let res' := acc.1.take det.start ++ ph ++ acc.1.drop det.stop
  let key := ptypeValue det.pattern_type
  (res', { st' with stats := dput key ((pyGet key st'.stats).getD 0 + 1) st'.stats },
   det' :: acc.2.2)

/-- `Anonymizer.anonymize`. -/
def Anonymizer.anonymize (st : Anonymizer) (text : Str) (orc : ReOracle) :
    Except Unit (AnonymizationResult × Anonymizer) :=
  match st.detect text orc with
  | .error e => .error e
  | .ok pr =>
    let st2 := { pr.2 with stats := [] }
    let fin := pr.1.reverse.foldl substituteStep (text, st2, [])
    .ok (⟨fin.1, fin.2.1.mappings, fin.2.1.stats, fin.2.2⟩, fin.2.1)

/-- Scanner of Python `s.replace(old, new)` for non-empty `old`: walk
left to right, replacing non-overlapping occurrences.  The fuel
argument (instantiated with the string length, which bounds the number
of steps) only makes the recursion structural; it never runs out. -/
def replaceAllPosF (pat new : Str) : Nat → Str → Str
  | _, [] => []
  | 0, s => s
  | fuel + 1, c :: rest =>
    if pat <+: (c :: rest) then
      new ++ replaceAllPosF pat new fuel (rest.drop (pat.length - 1))
    else
      c :: replaceAllPosF pat new fuel rest

/-- Python `s.replace(old, new)` for non-empty `old`. -/
def replaceAllPos (pat new : Str) (s : Str) : Str :=
  replaceAllPosF pat new s.length s

/-- Python `s.replace(old, new)`, including the empty-pattern case
(`"ab".replace("", "-") = "-a-b-"` style interleaving). -/
def replaceAll (s pat new : Str) : Str :=
  if pat = [] then new ++ s.flatMap (fun c => c :: new)
  else replaceAllPos pat new s

/-- `Anonymizer.deanonymize`: replace every known placeholder by its
original, iterating `reverse_mappings` in insertion order. -/
def Anonymizer.deanonymize (st : Anonymizer) (text : Str) : Str :=
  st.reverse_mappings.foldl (fun res pr => replaceAll res pr.1 pr.2) text

/-- `Anonymizer._escape_html` (chained `str.replace` calls, in source
order; `&` first). -/
def escapeHtml (t : Str) : Str :=
  replaceAll (replaceAll (replaceAll (replaceAll (replaceAll (replaceAll (replaceAll
    t "&".toList "&amp;".toList)
      "<".toList "&lt;".toList)
      ">".toList "&gt;".toList)
      "\"".toList "&quot;".toList)
      [Char.ofNat 39] "&#39;".toList)
      "\n".toList "<br>".toList)
      " ".toList "&nbsp;".toList

/-- The highlighted `<span>` produced for one detection in
`Anonymizer.preview`. -/
def spanHtml (det : Detection) : Str :=
  let color := PATTERN_COLORS det.pattern_type
  "<span class=\"detection\" data-type=\"".toList ++ ptypeValue det.pattern_type ++
  "\" style=\"background-color: ".toList ++ color ++
  "20; border-bottom: 2px solid ".toList ++ color ++
  "; padding: 1px 2px; border-radius: 2px;\" title=\"".toList ++
  ptypeName det.pattern_type ++ "\">".toList ++
  escapeHtml det.value ++ "</span>".toList

/-- The html-assembly loop of `preview`, threading `last_end`. -/
def previewParts (text : Str) : List Detection → Nat → Str
  | [], lastEnd => if lastEnd < text.length then escapeHtml (text.drop lastEnd) else []
  | det :: rest, lastEnd =>
    (if lastEnd < det.start then escapeHtml (pySlice text lastEnd det.start) else []) ++
    spanHtml det ++ previewParts text rest det.stop

/-- `Anonymizer.preview`. -/
def Anonymizer.preview (st : Anonymizer) (text : Str) (orc : ReOracle) :
    Except Unit (PreviewResult × Anonymizer) :=
  match st.detect text orc with
  | .error e => .error e
  | .ok pr =>
    let stats := pr.1.foldl (fun acc det =>
      let key := ptypeValue det.pattern_type
      dput key ((pyGet key acc).getD 0 + 1) acc) []
    .ok (⟨pr.1, previewParts text pr.1 0, stats⟩, pr.2)

/-! ### Session import (`import_mappings`, `load_session_state`)

Python attributes are dynamically typed: the import paths assign
whatever values `json.loads` / the caller supplied, without shape
validation.  This fragment is therefore modelled over `PyVal`
(JSON-style dynamic values) and a dynamically-typed view `PyState` of
the engine attributes the import paths touch. -/

/-- A dynamic (JSON-style) Python value. -/
inductive PyVal
  | str (s : Str)
  | int (n : Int)
  | bool (b : Bool)
  | pynone
  | list (xs : List PyVal)
  | dict (kvs : List (Str × PyVal))

/-- `v.get(k, default)`: on a dict, the first binding of `k` or the
default; on anything else Python raises `AttributeError` (there is no
`.get`), modelled as `throw ()`. -/
def pyvalGet (v : PyVal) (k : Str) (dflt : PyVal) : Except Unit PyVal :=
  match v with
  | .dict kvs => pure ((pyGet k kvs).getD dflt)
  | _ => throw ()

/-- Association-list update for `PatternType`-keyed dicts. -/
def dputPt (k : PatternType) (v : PyVal) :
    List (PatternType × PyVal) → List (PatternType × PyVal)
  | [] => [(k, v)]
  | (k', v') :: rest =>
    if k' = k then (k, v) :: rest else (k', v') :: dputPt k v rest

/-- Dynamically-typed view of the `Anonymizer` attributes touched by
the session-import paths.  In a healthy instance `mappings`, `reverse_mappings` and
`counters` hold dicts, but the import paths can (and do) store arbitrary
values there. -/
structure PyState where
  mappings : PyVal := .dict []
  reverse_mappings : PyVal := .dict []
  counters : PyVal := .dict []
  enabled_patterns : List (PatternType × PyVal) :=
    patternTypeList.map (fun pt => (pt, .bool true))
  custom_patterns : PyVal := .list []
  preserve_list : PyVal := .list []
  enhancers_enabled : PyVal := .dict []
  enhancers_config : PyVal := .dict []

/-- `Anonymizer.import_mappings`.  `data = none` models input on which
`json.loads` raises `JSONDecodeError` (caught, `return False`);
`data = some v` models input parsing to `v`.  On a non-dict `v` the
first `parsed.get` raises `AttributeError`, which the
`except (JSONDecodeError, KeyError)` clause does not catch — an uncaught
exception (`throw`).  On a dict, the three attributes are assigned
whatever the dict holds, with no shape validation, and the call returns
`True`.  A non-`"json"` format falls through to the final
`return False`. -/
def import_mappings (st : PyState) (data : Option PyVal) (format : Str) :
    Except Unit (Bool × PyState) :=
  if format = "json".toList then
    match data with
    | none => pure (false, st)
    | some parsed =>
      match pyvalGet parsed "mappings".toList (.dict []) with
      | .error e => .error e
      | .ok m =>
        match pyvalGet parsed "reverse_mappings".toList (.dict []) with
        | .error e => .error e
        | .ok r =>
          match pyvalGet parsed "counters".toList (.dict []) with
          | .error e => .error e
          | .ok c =>
            .ok (true, { st with mappings := m, reverse_mappings := r, counters := c })
  else pure (false, st)

/-- The `for pt in PatternType: self.enabled_patterns[pt] =
enabled.get(pt.value, True)` loop of `load_session_state`; on an
`enabled` value without `.get` the first iteration raises, leaving the
partially-updated state (carried in the `Except` error). -/
def loadEnabledLoop (enabled : PyVal) :
    List PatternType → PyState → Except PyState PyState
  | [], st => pure st
  | pt :: rest, st =>
    match pyvalGet enabled (ptypeValue pt) (.bool true) with
    | .error _ => throw st
    | .ok b => loadEnabledLoop enabled rest
        { st with enabled_patterns := dputPt pt b st.enabled_patterns }

/-- Body of `Anonymizer.load_session_state` before the `except` clause:
sequential attribute assignment; every raise aborts with the state
mutated so far.  The final re-activation loop iterates
`self._enhancers_enabled.items()`, raising on a non-dict value;
`set_enhancer_enabled` itself only touches enhancer bookkeeping (never
`mappings`/`reverse_mappings`/`counters`/`enabled_patterns`) and returns
a bool without raising, so it is modelled as a no-op on `PyState`. -/
def load_session_state_core (st : PyState) (v : PyVal) :
    Except PyState PyState :=
  match pyvalGet v "mappings".toList (.dict []) with
  | .error _ => throw st
  | .ok m =>
    let st := { st with mappings := m }
    match pyvalGet v "reverse_mappings".toList (.dict []) with
    | .error _ => throw st
    | .ok r =>
      let st := { st with reverse_mappings := r }
      match pyvalGet v "counters".toList (.dict []) with
      | .error _ => throw st
      | .ok c =>
        let st := { st with counters := c }
        match pyvalGet v "enabled_patterns".toList (.dict []) with
        | .error _ => throw st
        | .ok enabled =>
          match loadEnabledLoop enabled patternTypeList st with
          | .error st' => throw st'
          | .ok st =>
            match pyvalGet v "custom_patterns".toList (.list []) with
            | .error _ => throw st
            | .ok cp =>
              let st := { st with custom_patterns := cp }
              match pyvalGet v "preserve_list".toList (.list []) with
              | .error _ => throw st
              | .ok p =>
                let st := { st with preserve_list := p }
                match pyvalGet v "enhancers_enabled".toList (.dict []) with
                | .error _ => throw st
                | .ok ee =>
                  let st := { st with enhancers_enabled := ee }
                  match pyvalGet v "enhancers_config".toList (.dict []) with
                  | .error _ => throw st
                  | .ok ec =>
                    let st := { st with enhancers_config := ec }
                    match st.enhancers_enabled with
                    | .dict _ => pure st
                    | _ => throw st

/-- `Anonymizer.load_session_state`: the catch-all `except Exception`
turns any raise into `return False`, keeping whatever mutations already
happened. -/
def load_session_state (st : PyState) (v : PyVal) : Bool × PyState :=
  match load_session_state_core st v with
  | .ok st' => (true, st')
  | .error st' => (false, st')

/-! ### String-shape notions used by the round-trip analysis -/

/-- No bracket characters. -/
def bracketFree (s : Str) : Prop := '[' ∉ s ∧ ']' ∉ s

/-- A placeholder-shaped string: an opening bracket, a bracket-free
interior, a closing bracket. -/
def shapeGood (p : Str) : Prop :=
  ∃ inner, p = '[' :: inner ++ [']'] ∧ bracketFree inner

/-- The anonymized text viewed structurally: for sorted pairwise-disjoint
spans `(sᵢ, eᵢ, pᵢ)` of the original text `T`, the interleaving of the
untouched pieces of `T` with the strings `pᵢ` standing at the spans. -/
def stage (T : Str) : List (Nat × Nat × Str) → Nat → Str
  | [], pos => T.drop pos
  | (s, e, p) :: rest, pos => pySlice T pos s ++ p ++ stage T rest e

/-! ### Proof-support definitions -/

/-- Well-formed `re.Match`: spans lie inside the subject text (the `re`
engine guarantees this). -/
def MatchWf (len : Nat) (m : RMatch) : Prop :=
  m.span.1 ≤ m.span.2 ∧ m.span.2 ≤ len ∧
  ∀ pr ∈ m.groups.filterMap id, pr.1 ≤ pr.2 ∧ pr.2 ≤ len

/-- Well-formed oracle for a text of length `len`: every supplied match
is well-formed. -/
def ReOracle.Wf (orc : ReOracle) (len : Nat) : Prop :=
  (∀ pt, ∀ m ∈ orc.catalog pt, MatchWf len m) ∧
  (∀ o ∈ orc.custom, ∀ ms, o = some ms → ∀ m ∈ ms, MatchWf len m)

/-- Honest enhancer result on text `T`: its span lies in `T` and its
reported value is the text at that span. -/
def EnhWf (T : Str) (r : EnhRes) : Prop :=
  r.stop ≤ T.length ∧ r.value = pySlice T r.start r.stop

/-- Registry invariant of an `Anonymizer` whose placeholder maps were
built exclusively by `_get_placeholder` (no import): keys and
placeholders are duplicate-free, each placeholder is some
`[PREFIX_NNN]` with `NNN` at most the prefix counter, and the forward
and reverse maps agree. -/
structure RegInv (st : Anonymizer) : Prop where
  mapKeys : (st.mappings.map Prod.fst).Nodup
  mapVals : (st.mappings.map Prod.snd).Nodup
  revKeys : (st.reverse_mappings.map Prod.fst).Nodup
  shape : ∀ pr ∈ st.mappings, ∃ pfx n c,
    pr.2 = mkPlaceholder pfx n ∧ 1 ≤ n ∧ pyGet pfx st.counters = some c ∧ n ≤ c
  revShape : ∀ pr ∈ st.reverse_mappings, ∃ pfx n c,
    pr.1 = mkPlaceholder pfx n ∧ 1 ≤ n ∧ pyGet pfx st.counters = some c ∧ n ≤ c
  rev : ∀ pr ∈ st.mappings, pyGet pr.2 st.reverse_mappings = some pr.1

/-- Every reverse-map key is placeholder-shaped (holds when all
placeholders were issued with bracket-free prefixes, as `anonymize`
always does via the `PREFIXES` table). -/
def RevShaped (st : Anonymizer) : Prop :=
  ∀ pr ∈ st.reverse_mappings, shapeGood pr.1

/-- Registry states reachable in the lifetime of one instance with no
reset and no import: the fresh instance, any `_get_placeholder` call,
and any operation that does not touch the three registry attributes
(detect/preview, configuration changes, statistics). -/
inductive Reachable : Anonymizer → Prop
  | base : Reachable Anonymizer.init
  | step (st : Anonymizer) (v pfx : Str) :
      Reachable st → Reachable (st.getPlaceholder v pfx).2
  | reconfig (st st' : Anonymizer) : Reachable st →
      st'.mappings = st.mappings → st'.reverse_mappings = st.reverse_mappings →
      st'.counters = st.counters → Reachable st'

/-- `stage` with an explicit right bound `B` instead of the tail of `T`
(used while peeling substitutions off the right end). -/
def stageB (T : Str) : List (Nat × Nat × Str) → Nat → Nat → Str
  | [], pos, bnd => pySlice T pos bnd
  | (s, e, p) :: rest, pos, bnd => pySlice T pos s ++ p ++ stageB T rest e bnd

/-- The detections of the reversed detection list are laid out right to
left below the bound: each span is non-empty, ends at or before the
bound, and the remaining (earlier) spans end at or before its start. -/
def RevChain : List Detection → Nat → Prop
  | [], _ => True
  | d :: r, bnd => d.stop ≤ bnd ∧ d.start < d.stop ∧ RevChain r d.start

/-- The placeholder-assignment part of the `anonymize` substitution
loop, processing the reversed (right-to-left) detection list: returns
the final engine state, the substituted spans in left-to-right order,
and the placeholder-carrying detections in left-to-right order. -/
def assignFold (st : Anonymizer) :
    List Detection → Anonymizer × List (Nat × Nat × Str) × List Detection
  | [] => (st, [], [])
  | d :: r =>
    let pfx := PREFIXES d.pattern_type
    let ph := (st.getPlaceholder d.value pfx).1
    let st1 := (st.getPlaceholder d.value pfx).2
    let key := ptypeValue d.pattern_type
    let st2 := { st1 with stats := dput key ((pyGet key st1.stats).getD 0 + 1) st1.stats }
    let res := assignFold st2 r
    (res.1, res.2.1 ++ [(d.start, d.stop, ph)], res.2.2 ++ [{ d with placeholder := some ph }])

/-- Subject text of the end-to-end example from the spec. -/
def c3text : Str := "User alice@example.com logged in from 192.168.1.5".toList

/-- `finditer` results of the compiled `DEFAULT_PATTERNS` regexes on
`c3text` (49 characters, `alice@example.com` at `[5,22)`,
`192.168.1.5` at `[38,49)`):

* `EMAIL` matches `alice@example.com` at `[5,22)` (no capture groups);
* `IPV4` matches `192.168.1.5` at `[38,49)` (no capture groups);
* `HOSTNAME` matches `example.com` at `[11,22)` (no capture groups);
* `USERNAME` matches `User alice` at `[0,10)` via its second
  alternative `(?:user|username|usr|login)[=:\s]+["\x27]?([a-zA-Z][a-zA-Z0-9_.-]\x7b1,63\x7d)["\x27]?`
  (case-insensitive), whose group 2 captures `alice` at `[5,10)`;
  groups 1 and 3 do not participate;
* no other catalog pattern matches: the text has no colons, equals
  signs, slashes, brackets, hyphens, plus signs, no `eyJ`/`http` and no
  letter adjacent to a digit, and its only digit runs are the
  1–3 digit octets of the IP. -/
def c3oracle : ReOracle where
  catalog := fun pt =>
    match pt with
    | EMAIL => [⟨(5, 22), []⟩]
    | IPV4 => [⟨(38, 49), []⟩]
    | HOSTNAME => [⟨(11, 22), []⟩]
    | USERNAME => [⟨(0, 10), [none, some (5, 10), none]⟩]
    | _ => []

/-- Invariant of the `(occupied_ranges, detections)` pair inside
`detect`: the occupied ranges are pairwise disjoint, the detections list
is the multiset of range-tagged detections, and each range carries the
span of its own detection (ranges are always offered with
`det.start`/`det.end`). -/
def RDInv (rd : RD) : Prop :=
  rd.1.Pairwise (fun a b => a.2.1 ≤ b.1 ∨ b.2.1 ≤ a.1) ∧
  rd.2.Perm (rd.1.map (fun r => r.2.2)) ∧
  ∀ r ∈ rd.1, r.2.2.start = r.1 ∧ r.2.2.stop = r.2.1

/-- Basic well-formedness of a detection relative to its subject text:
the span is ordered, lies inside the text, and the value is the text at
the span. -/
def PDet (text : Str) (d : Detection) : Prop :=
  d.start ≤ d.stop ∧ d.stop ≤ text.length ∧ d.value = pySlice text d.start d.stop

/-- Well-formed span list relative to a position: starts at or after
`pos`, each span ordered, chained, and ending at or before the end of
`T`. -/
def SpansWf (T : Str) : List (Nat × Nat × Str) → Nat → Prop
  | [], pos => pos ≤ T.length
  | (s, e, _) :: rest, pos => pos ≤ s ∧ s ≤ e ∧ SpansWf T rest e

/-- `SpansWf` with an explicit right bound instead of the length of the
text (matching `stageB`). -/
def SpansWfB : List (Nat × Nat × Str) → Nat → Nat → Prop
  | [], pos, bnd => pos ≤ bnd
  | (s, e, _) :: rest, pos, bnd => pos ≤ s ∧ s ≤ e ∧ SpansWfB rest e bnd

/-! ## Association-list (Python dict) lemmas -/

theorem pyGet_dput_self {α : Type} (k : Str) (v : α) (l : List (Str × α)) :
    pyGet k (dput k v l) = some v := by
  induction l with
  | nil => simp [dput, pyGet]
  | cons hd tl ih =>
    by_cases h : hd.1 = k
    · simp [dput, pyGet, h]
    · simpa [dput, pyGet, h] using ih

theorem pyGet_dput_ne {α : Type} {k k' : Str} (v : α) (l : List (Str × α))
    (h : k' ≠ k) : pyGet k' (dput k v l) = pyGet k' l := by
  have hkk : k ≠ k' := Ne.symm h
  induction l with
  | nil => simp [dput, pyGet, hkk]
  | cons hd tl ih =>
    obtain ⟨a, b⟩ := hd
    by_cases hh : a = k
    · subst hh
      simp [dput, pyGet, hkk]
    · simp [dput, pyGet, hh, ih]

theorem dput_of_pyGet_none {α : Type} {k : Str} (v : α) {l : List (Str × α)}
    (h : pyGet k l = none) : dput k v l = l ++ [(k, v)] := by
  induction l with
  | nil => simp [dput]
  | cons hd tl ih =>
    obtain ⟨a, b⟩ := hd
    by_cases hh : a = k
    · simp [pyGet, hh] at h
    · simp [pyGet, hh] at h
      simp [dput, hh, ih h]

theorem pyGet_none_iff {α : Type} {k : Str} {l : List (Str × α)} :
    pyGet k l = none ↔ k ∉ l.map Prod.fst := by
  induction l with
  | nil => simp [pyGet]
  | cons hd tl ih =>
    obtain ⟨a, b⟩ := hd
    simp only [pyGet, List.map_cons, List.mem_cons]
    by_cases hh : a = k
    · subst hh
      rw [if_pos rfl]
      exact iff_of_false (by simp) (fun h => h (Or.inl rfl))
    · rw [if_neg hh, ih]
      constructor
      · intro h hk
        rcases hk with hk | hk
        · exact hh hk.symm
        · exact h hk
      · intro h hk
        exact h (Or.inr hk)

theorem mem_of_pyGet {α : Type} {k : Str} {v : α} {l : List (Str × α)}
    (h : pyGet k l = some v) : (k, v) ∈ l := by
  induction l with
  | nil => simp [pyGet] at h
  | cons hd tl ih =>
    obtain ⟨a, b⟩ := hd
    by_cases hh : a = k
    · simp [pyGet, hh] at h
      subst hh
      subst h
      exact List.mem_cons_self _ _
    · simp [pyGet, hh] at h
      exact List.mem_cons_of_mem _ (ih h)

theorem pyGet_of_mem_nodup {α : Type} {k : Str} {v : α} {l : List (Str × α)}
    (h : (k, v) ∈ l) (hn : (l.map Prod.fst).Nodup) : pyGet k l = some v := by
  induction l with
  | nil => simp at h
  | cons hd tl ih =>
    obtain ⟨a, b⟩ := hd
    simp only [List.map_cons, List.nodup_cons] at hn
    rcases List.mem_cons.mp h with h | h
    · rw [Prod.mk.injEq] at h
      simp [pyGet, h.1, h.2]
    · have hk : a ≠ k := by
        intro e
        subst e
        exact hn.1 (List.mem_map.mpr ⟨(a, v), h, rfl⟩)
      simp [pyGet, hk, ih h hn.2]

theorem pyGet_append_left {α : Type} {k : Str} {v : α} {l : List (Str × α)}
    (l' : List (Str × α)) (h : pyGet k l = some v) :
    pyGet k (l ++ l') = some v := by
  induction l with
  | nil => simp [pyGet] at h
  | cons hd tl ih =>
    obtain ⟨a, b⟩ := hd
    by_cases hh : a = k
    · simp_all [pyGet]
    · simp [pyGet, hh] at h ⊢
      exact ih h

theorem pyGet_append_right {α : Type} {k : Str} {l : List (Str × α)}
    (l' : List (Str × α)) (h : pyGet k l = none) :
    pyGet k (l ++ l') = pyGet k l' := by
  induction l with
  | nil => simp
  | cons hd tl ih =>
    obtain ⟨a, b⟩ := hd
    by_cases hh : a = k
    · simp [pyGet, hh] at h
    · simp [pyGet, hh] at h ⊢
      exact ih h

/-! ## Decimal formatting lemmas -/

theorem digitVal_digitChar : ∀ d, d < 10 → digitVal (digitChar d) = d := by decide

theorem digitChar_ne : ∀ d, d < 10 →
    digitChar d ≠ '_' ∧ digitChar d ≠ '[' ∧ digitChar d ≠ ']' := by decide

theorem natDigitsAux_stable :
    ∀ f1 : Nat, ∀ f2 n : Nat, n < f1 → n < f2 →
      natDigitsAux f1 n = natDigitsAux f2 n := by
  intro f1
  induction f1 with
  | zero => omega
  | succ g ih =>
    intro f2 n h1 h2
    cases f2 with
    | zero => omega
    | succ g2 =>
      simp only [natDigitsAux]
      by_cases hn : n < 10
      · simp [hn]
      · simp only [hn, if_false]
        have hd : n / 10 < n := Nat.div_lt_self (by omega) (by omega)
        rw [ih g2 (n / 10) (by omega) (by omega)]

theorem natDigits_eq (n : Nat) :
    natDigits n =
      if n < 10 then [digitChar n]
      else natDigits (n / 10) ++ [digitChar (n % 10)] := by
  by_cases hn : n < 10
  · rw [if_pos hn, natDigits]
    simp [natDigitsAux, hn]
  · rw [if_neg hn, natDigits, natDigits]
    have hstep : natDigitsAux (n + 1) n = natDigitsAux n (n / 10) ++ [digitChar (n % 10)] := by
      simp only [natDigitsAux, hn, if_false]
    rw [hstep, natDigitsAux_stable n (n / 10 + 1) (n / 10)
      (by omega) (by omega)]

theorem natDigits_digits (n : Nat) : ∀ c ∈ natDigits n, ∃ d, d < 10 ∧ c = digitChar d := by
  induction n using Nat.strong_induction_on with
  | _ n ih =>
    rw [natDigits_eq]
    split
    · intro c hc
      simp at hc
      exact ⟨n, by omega, hc⟩
    · intro c hc
      rcases List.mem_append.mp hc with hc | hc
      · exact ih (n / 10) (Nat.div_lt_self (by omega) (by omega)) c hc
      · simp at hc
        exact ⟨n % 10, Nat.mod_lt _ (by omega), hc⟩

theorem strVal_natDigits (n : Nat) : strVal (natDigits n) = n := by
  induction n using Nat.strong_induction_on with
  | _ n ih =>
    rw [natDigits_eq]
    split
    · simp [strVal, digitVal_digitChar n ‹n < 10›]
    · rw [strVal, List.foldl_append]
      have h1 : List.foldl (fun a c => 10 * a + digitVal c) 0 (natDigits (n / 10)) = n / 10 :=
        ih (n / 10) (Nat.div_lt_self (by omega) (by omega))
      rw [h1]
      simp [digitVal_digitChar (n % 10) (Nat.mod_lt _ (by omega))]
      omega

theorem strVal_replicate_zero (k : Nat) (l : Str) :
    strVal (List.replicate k '0' ++ l) = strVal l := by
  induction k with
  | zero => simp
  | succ k ih =>
    rw [List.replicate_succ, List.cons_append, strVal, List.foldl_cons]
    have : (10 * 0 + digitVal '0') = 0 := by decide
    rw [this]
    exact ih

theorem strVal_pad3 (n : Nat) : strVal (pad3 n) = n := by
  rw [pad3, strVal_replicate_zero, strVal_natDigits]

theorem pad3_inj {n m : Nat} (h : pad3 n = pad3 m) : n = m := by
  have := strVal_pad3 n
  rw [h, strVal_pad3] at this
  omega

theorem pad3_digits (n : Nat) : ∀ c ∈ pad3 n, ∃ d, d < 10 ∧ c = digitChar d := by
  intro c hc
  rcases List.mem_append.mp hc with hc | hc
  · have := List.eq_of_mem_replicate hc
    exact ⟨0, by omega, by simp [this, digitChar]⟩
  · exact natDigits_digits n c hc

theorem pad3_length (n : Nat) : 3 ≤ (pad3 n).length := by
  rw [pad3, List.length_append, List.length_replicate]
  omega

theorem pad3_no_underscore (n : Nat) : '_' ∉ pad3 n := by
  intro h
  obtain ⟨d, hd, he⟩ := pad3_digits n _ h
  exact (digitChar_ne d hd).1 he.symm

theorem pad3_no_brackets (n : Nat) : '[' ∉ pad3 n ∧ ']' ∉ pad3 n := by
  constructor <;> intro h <;> obtain ⟨d, hd, he⟩ := pad3_digits n _ h
  · exact (digitChar_ne d hd).2.1 he.symm
  · exact (digitChar_ne d hd).2.2 he.symm

/-! ## Placeholder-string lemmas -/

theorem splitUnderscore :
    ∀ (p q a b : Str), p ++ '_' :: a = q ++ '_' :: b →
      '_' ∉ a → '_' ∉ b → p = q ∧ a = b := by
  intro p
  induction p with
  | nil =>
    intro q a b h ha hb
    cases q with
    | nil => simpa using h
    | cons c q' =>
      simp only [List.nil_append, List.cons_append, List.cons.injEq] at h
      exfalso
      apply ha
      rw [h.2]
      exact List.mem_append.mpr (Or.inr (by simp))
  | cons c p' ih =>
    intro q a b h ha hb
    cases q with
    | nil =>
      simp only [List.cons_append, List.nil_append, List.cons.injEq] at h
      exfalso
      apply hb
      rw [← h.2]
      exact List.mem_append.mpr (Or.inr (by simp))
    | cons c' q' =>
      simp only [List.cons_append, List.cons.injEq] at h
      obtain ⟨h1, h2⟩ := ih q' a b h.2 ha hb
      exact ⟨by rw [h.1, h1], h2⟩

theorem mkPlaceholder_inj {p q : Str} {n m : Nat}
    (h : mkPlaceholder p n = mkPlaceholder q m) : p = q ∧ n = m := by
  have h2 : p ++ '_' :: (pad3 n ++ [']']) = q ++ '_' :: (pad3 m ++ [']']) := by
    have ht := congrArg List.tail h
    simpa [mkPlaceholder] using ht
  have hsplit := splitUnderscore p q (pad3 n ++ [']']) (pad3 m ++ [']']) h2
    (by
      intro hmem
      rcases List.mem_append.mp hmem with hm | hm
      · exact pad3_no_underscore n hm
      · simp at hm)
    (by
      intro hmem
      rcases List.mem_append.mp hmem with hm | hm
      · exact pad3_no_underscore m hm
      · simp at hm)
  refine ⟨hsplit.1, ?_⟩
  have h2 := hsplit.2
  have h3 : pad3 n = pad3 m := by
    have := congrArg List.dropLast h2
    simpa using this
  exact pad3_inj h3

theorem shapeGood_mkPlaceholder {pfx : Str} (h : bracketFree pfx) (n : Nat) :
    shapeGood (mkPlaceholder pfx n) := by
  refine ⟨pfx ++ '_' :: pad3 n, ?_, ?_, ?_⟩
  · simp [mkPlaceholder, List.cons_append, List.append_assoc]
  · intro hm
    rcases List.mem_append.mp hm with hm | hm
    · exact h.1 hm
    · rcases List.mem_cons.mp hm with hm | hm
      · exact absurd hm.symm (by decide)
      · exact (pad3_no_brackets n).1 hm
  · intro hm
    rcases List.mem_append.mp hm with hm | hm
    · exact h.2 hm
    · rcases List.mem_cons.mp hm with hm | hm
      · exact absurd hm.symm (by decide)
      · exact (pad3_no_brackets n).2 hm

/-! ## Registry (`_get_placeholder`) lemmas -/

theorem getPlaceholder_of_some {st : Anonymizer} {v pl : Str} (pfx : Str)
    (h : pyGet v st.mappings = some pl) :
    st.getPlaceholder v pfx = (pl, st) := by
  simp [Anonymizer.getPlaceholder, h]

theorem getPlaceholder_of_none {st : Anonymizer} {v : Str} (pfx : Str)
    (h : pyGet v st.mappings = none) :
    st.getPlaceholder v pfx =
      (mkPlaceholder pfx ((pyGet pfx st.counters).getD 0 + 1),
       { st with
          counters := dput pfx ((pyGet pfx st.counters).getD 0 + 1) st.counters
          mappings := dput v (mkPlaceholder pfx ((pyGet pfx st.counters).getD 0 + 1)) st.mappings
          reverse_mappings :=
            dput (mkPlaceholder pfx ((pyGet pfx st.counters).getD 0 + 1)) v
              st.reverse_mappings }) := by
  simp [Anonymizer.getPlaceholder, h]

theorem fresh_ph_not_map_val {st : Anonymizer} (hInv : RegInv st) (pfx : Str) :
    ∀ pr ∈ st.mappings, pr.2 ≠ mkPlaceholder pfx ((pyGet pfx st.counters).getD 0 + 1) := by
  intro pr hm he
  obtain ⟨pfx', n', c', h1, _h2, h3, h4⟩ := hInv.shape pr hm
  rw [h1] at he
  obtain ⟨hp, hn⟩ := mkPlaceholder_inj he
  subst hp
  rw [h3] at hn
  simp at hn
  omega

theorem fresh_ph_not_rev_key {st : Anonymizer} (hInv : RegInv st) (pfx : Str) :
    pyGet (mkPlaceholder pfx ((pyGet pfx st.counters).getD 0 + 1)) st.reverse_mappings
      = none := by
  rw [pyGet_none_iff]
  intro hmem
  obtain ⟨pr, hpr, hfst⟩ := List.mem_map.mp hmem
  obtain ⟨pfx', n', c', h1, _h2, h3, h4⟩ := hInv.revShape pr hpr
  rw [h1] at hfst
  obtain ⟨hp, hn⟩ := mkPlaceholder_inj hfst
  subst hp
  rw [h3] at hn
  simp at hn
  omega

theorem fresh_key_not_map_key {st : Anonymizer} {v : Str}
    (h : pyGet v st.mappings = none) : v ∉ st.mappings.map Prod.fst :=
  pyGet_none_iff.mp h

theorem RegInv.step {st : Anonymizer} (hInv : RegInv st) (v pfx : Str) :
    RegInv (st.getPlaceholder v pfx).2 := by
  cases hq : pyGet v st.mappings with
  | some pl => rw [getPlaceholder_of_some pfx hq]; exact hInv
  | none =>
    rw [getPlaceholder_of_none pfx hq]
    set c := (pyGet pfx st.counters).getD 0 with hc
    set ph := mkPlaceholder pfx (c + 1) with hph
    have hmap : dput v ph st.mappings = st.mappings ++ [(v, ph)] :=
      dput_of_pyGet_none ph hq
    have hrevnone := fresh_ph_not_rev_key hInv pfx
    have hrev : dput ph v st.reverse_mappings = st.reverse_mappings ++ [(ph, v)] :=
      dput_of_pyGet_none v hrevnone
    constructor
    · simp only [hmap, List.map_append, List.map_cons, List.map_nil]
      rw [List.nodup_append]
      exact ⟨hInv.mapKeys, List.nodup_singleton _,
        by simpa [List.disjoint_singleton] using fresh_key_not_map_key hq⟩
    · simp only [hmap, List.map_append, List.map_cons, List.map_nil]
      rw [List.nodup_append]
      refine ⟨hInv.mapVals, List.nodup_singleton _, ?_⟩
      rw [List.disjoint_singleton]
      intro hmem
      obtain ⟨pr, hpr, hsnd⟩ := List.mem_map.mp hmem
      exact fresh_ph_not_map_val hInv pfx pr hpr hsnd
    · simp only [hrev, List.map_append, List.map_cons, List.map_nil]
      rw [List.nodup_append]
      refine ⟨hInv.revKeys, List.nodup_singleton _, ?_⟩
      rw [List.disjoint_singleton]
      exact pyGet_none_iff.mp hrevnone
    · intro pr hm
      rw [hmap] at hm
      rcases List.mem_append.mp hm with hm | hm
      · obtain ⟨pfx', n', c', h1, h2, h3, h4⟩ := hInv.shape pr hm
        by_cases hpp : pfx' = pfx
        · subst hpp
          refine ⟨pfx', n', c + 1, h1, h2, pyGet_dput_self _ _ _, ?_⟩
          rw [h3] at hc
          simp at hc
          omega
        · exact ⟨pfx', n', c', h1, h2, by rw [pyGet_dput_ne _ _ hpp]; exact h3, h4⟩
      · simp at hm
        subst hm
        exact ⟨pfx, c + 1, c + 1, rfl, by omega, pyGet_dput_self _ _ _, le_refl _⟩
    · intro pr hm
      rw [hrev] at hm
      rcases List.mem_append.mp hm with hm | hm
      · obtain ⟨pfx', n', c', h1, h2, h3, h4⟩ := hInv.revShape pr hm
        by_cases hpp : pfx' = pfx
        · subst hpp
          refine ⟨pfx', n', c + 1, h1, h2, pyGet_dput_self _ _ _, ?_⟩
          rw [h3] at hc
          simp at hc
          omega
        · exact ⟨pfx', n', c', h1, h2, by rw [pyGet_dput_ne _ _ hpp]; exact h3, h4⟩
      · simp at hm
        subst hm
        exact ⟨pfx, c + 1, c + 1, rfl, by omega, pyGet_dput_self _ _ _, le_refl _⟩
    · intro pr hm
      rw [hmap] at hm
      rw [hrev]
      rcases List.mem_append.mp hm with hm | hm
      · exact pyGet_append_left _ (hInv.rev pr hm)
      · simp at hm
        subst hm
        rw [pyGet_append_right _ hrevnone]
        simp [pyGet]

theorem RegInv.init : RegInv Anonymizer.init := by
  constructor <;> simp [Anonymizer.init]

theorem reachable_regInv {st : Anonymizer} (h : Reachable st) : RegInv st := by
  induction h with
  | base => exact RegInv.init
  | step st v pfx _h ih => exact ih.step v pfx
  | reconfig st st' _h h1 h2 h3 ih =>
    constructor
    · rw [h1]; exact ih.mapKeys
    · rw [h1]; exact ih.mapVals
    · rw [h2]; exact ih.revKeys
    · rw [h1, h3]; exact ih.shape
    · rw [h2, h3]; exact ih.revShape
    · rw [h1, h2]; exact ih.rev

theorem getPlaceholder_preserves {st : Anonymizer} {w pl : Str} (v pfx : Str)
    (h : pyGet w st.mappings = some pl) :
    pyGet w (st.getPlaceholder v pfx).2.mappings = some pl := by
  cases hq : pyGet v st.mappings with
  | some pl' => rw [getPlaceholder_of_some pfx hq]; exact h
  | none =>
    rw [getPlaceholder_of_none pfx hq]
    have hvw : w ≠ v := by
      intro e
      rw [e, hq] at h
      cases h
    simpa [pyGet_dput_ne _ _ hvw] using h

theorem nodup_snd_inj {α β : Type} {l : List (α × β)}
    (hn : (l.map Prod.snd).Nodup) :
    ∀ e1 ∈ l, ∀ e2 ∈ l, e1.2 = e2.2 → e1 = e2 := by
  induction l with
  | nil => simp
  | cons hd tl ih =>
    simp only [List.map_cons, List.nodup_cons] at hn
    intro e1 h1 e2 h2 he
    rcases List.mem_cons.mp h1 with h1 | h1 <;> rcases List.mem_cons.mp h2 with h2 | h2
    · rw [h1, h2]
    · exfalso
      apply hn.1
      rw [h1] at he
      exact he ▸ List.mem_map.mpr ⟨e2, h2, rfl⟩
    · exfalso
      apply hn.1
      rw [h2] at he
      exact he ▸ List.mem_map.mpr ⟨e1, h1, rfl⟩
    · exact ih hn.2 e1 h1 e2 h2 he

theorem counters_getD_monotone (st : Anonymizer) (v pfx q : Str) :
    (pyGet q st.counters).getD 0 ≤
      (pyGet q (st.getPlaceholder v pfx).2.counters).getD 0 := by
  cases hq : pyGet v st.mappings with
  | some pl => rw [getPlaceholder_of_some pfx hq]
  | none =>
    rw [getPlaceholder_of_none pfx hq]
    by_cases hpq : q = pfx
    · subst hpq
      simp only
      rw [pyGet_dput_self]
      simp
    · simp only
      rw [pyGet_dput_ne _ _ hpq]

/-- C2.  Registry bijectivity and stability: in every registry state
reachable in the lifetime of one `Anonymizer` instance (no reset and no
session import), (i) no two distinct original values hold the same placeholder
(the issued placeholders are duplicate-free, so e.g. 1000 distinct IPv4
values mapped in one session hold 1000 pairwise distinct placeholders);
(ii) requesting a placeholder for an already-mapped value returns
exactly the stored placeholder and leaves the state untouched — the
same value always resolves to the identical placeholder; and (iii) any
further `_get_placeholder` call (hence any further `anonymize` call,
which issues placeholders only through it) preserves every existing
value-to-placeholder binding. -/
theorem C2_registry_bijective_and_stable (st : Anonymizer) (h : Reachable st) :
    ((st.mappings.map Prod.snd).Nodup ∧
     ∀ v w pl pl', pyGet v st.mappings = some pl → pyGet w st.mappings = some pl' →
       v ≠ w → pl ≠ pl') ∧
    (∀ v pl pfx, pyGet v st.mappings = some pl →
       st.getPlaceholder v pfx = (pl, st)) ∧
    (∀ v pfx w pl, pyGet w st.mappings = some pl →
       pyGet w (st.getPlaceholder v pfx).2.mappings = some pl) := by
  have hInv := reachable_regInv h
  refine ⟨⟨hInv.mapVals, ?_⟩, fun v pl pfx hv => getPlaceholder_of_some pfx hv,
    fun v pfx w pl hw => getPlaceholder_preserves v pfx hw⟩
  intro v w pl pl' hv hw hvw he
  subst he
  have h1 := mem_of_pyGet hv
  have h2 := mem_of_pyGet hw
  have := nodup_snd_inj hInv.mapVals (v, pl) h1 (w, pl) h2 rfl
  rw [Prod.mk.injEq] at this
  exact hvw this.1

/-- Witness for C2: a concrete two-step session mapping two distinct
IPv4 values to `[IP_001]` and `[IP_002]`. -/
theorem C2_witness :
    (((((Anonymizer.init.getPlaceholder "10.0.0.1".toList "IP".toList).2).getPlaceholder
        "10.0.0.2".toList "IP".toList).2).mappings.map Prod.snd).Nodup ∧
    ((((Anonymizer.init.getPlaceholder "10.0.0.1".toList "IP".toList).2).getPlaceholder
        "10.0.0.2".toList "IP".toList).2).getPlaceholder "10.0.0.1".toList "IP".toList
      = ("[IP_001]".toList,
         (((Anonymizer.init.getPlaceholder "10.0.0.1".toList "IP".toList).2).getPlaceholder
            "10.0.0.2".toList "IP".toList).2) := by
  have hreach : Reachable
      ((((Anonymizer.init.getPlaceholder "10.0.0.1".toList "IP".toList).2).getPlaceholder
        "10.0.0.2".toList "IP".toList).2) :=
    Reachable.step _ _ _ (Reachable.step _ _ _ Reachable.base)
  have hthm := C2_registry_bijective_and_stable _ hreach
  exact ⟨hthm.1.1, hthm.2.1 "10.0.0.1".toList "[IP_001]".toList "IP".toList (by decide)⟩

/-- C6.  Placeholder format: when `_get_placeholder` sees a fresh value
it returns exactly `"[" + prefix + "_" + NNN + "]"` where `NNN` is the
zero-padded decimal of the incremented per-prefix counter: the counter
becomes its old value (0 before first use) plus exactly 1, other
prefixes' counters are untouched (and no counter ever decreases), the
digit block is at least 3 characters, consists only of decimal digits,
and its decimal value is exactly the counter — no truncation at any
magnitude. -/
theorem C6_placeholder_format (st : Anonymizer) (v pfx : Str)
    (hfresh : pyGet v st.mappings = none) :
    (st.getPlaceholder v pfx).1 =
      '[' :: pfx ++ '_' :: pad3 ((pyGet pfx st.counters).getD 0 + 1) ++ [']'] ∧
    pyGet pfx (st.getPlaceholder v pfx).2.counters =
      some ((pyGet pfx st.counters).getD 0 + 1) ∧
    (∀ q, q ≠ pfx →
      pyGet q (st.getPlaceholder v pfx).2.counters = pyGet q st.counters) ∧
    (∀ q w pfx', (pyGet q st.counters).getD 0 ≤
      (pyGet q (st.getPlaceholder w pfx').2.counters).getD 0) ∧
    3 ≤ (pad3 ((pyGet pfx st.counters).getD 0 + 1)).length ∧
    strVal (pad3 ((pyGet pfx st.counters).getD 0 + 1)) =
      (pyGet pfx st.counters).getD 0 + 1 ∧
    (∀ ch ∈ pad3 ((pyGet pfx st.counters).getD 0 + 1), ∃ d, d < 10 ∧ ch = digitChar d) := by
  rw [getPlaceholder_of_none pfx hfresh]
  refine ⟨rfl, ?_, ?_, ?_, pad3_length _, strVal_pad3 _, pad3_digits _⟩
  · simp only
    rw [pyGet_dput_self]
  · intro q hq
    simp only
    rw [pyGet_dput_ne _ _ hq]
  · intro q w pfx'
    exact counters_getD_monotone st w pfx' q

/-- Witness for C6: first use of prefix `IP` on a fresh engine issues
`[IP_001]` with counter 1. -/
theorem C6_witness :
    (Anonymizer.init.getPlaceholder "10.0.0.1".toList "IP".toList).1 =
      "[IP_001]".toList ∧
    pyGet "IP".toList
      (Anonymizer.init.getPlaceholder "10.0.0.1".toList "IP".toList).2.counters =
      some 1 := by
  have h := C6_placeholder_format Anonymizer.init "10.0.0.1".toList "IP".toList (by decide)
  refine ⟨?_, ?_⟩
  · rw [h.1]
    decide
  · have h2 := h.2.1
    simpa using h2

/-! ## Overlap-resolver lemmas -/

theorem overlapScan_perm {start stop : Nat} :
    ∀ {ranges kept removed : List (Nat × Nat × Detection)},
      overlapScan start stop ranges = some (kept, removed) →
      ranges.Perm (kept ++ removed) := by
  intro ranges
  induction ranges with
  | nil =>
    intro kept removed h
    simp [overlapScan] at h
    simp [h.1, h.2]
  | cons hd tl ih =>
    intro kept removed h
    obtain ⟨s, e, ex⟩ := hd
    rw [overlapScan] at h
    split at h
    · cases hrec : overlapScan start stop tl with
      | none => rw [hrec] at h; cases h
      | some pr =>
        rw [hrec] at h
        obtain ⟨k, r⟩ := pr
        simp at h
        rw [← h.1, ← h.2]
        exact List.Perm.cons _ (ih hrec)
    · split at h
      · cases hrec : overlapScan start stop tl with
        | none => rw [hrec] at h; cases h
        | some pr =>
          rw [hrec] at h
          obtain ⟨k, r⟩ := pr
          simp at h
          rw [← h.1, ← h.2]
          exact ((ih hrec).cons _).trans List.perm_middle.symm
      · split at h
        · cases h
        · split at h
          · cases hrec : overlapScan start stop tl with
            | none => rw [hrec] at h; cases h
            | some pr =>
              rw [hrec] at h
              obtain ⟨k, r⟩ := pr
              simp at h
              rw [← h.1, ← h.2]
              exact ((ih hrec).cons _).trans List.perm_middle.symm
          · cases h

theorem overlapScan_kept_disjoint {start stop : Nat} :
    ∀ {ranges kept removed : List (Nat × Nat × Detection)},
      overlapScan start stop ranges = some (kept, removed) →
      ∀ r ∈ kept, stop ≤ r.1 ∨ r.2.1 ≤ start := by
  intro ranges
  induction ranges with
  | nil =>
    intro kept removed h
    simp [overlapScan] at h
    simp [h.1]
  | cons hd tl ih =>
    intro kept removed h
    obtain ⟨s, e, ex⟩ := hd
    rw [overlapScan] at h
    split at h
    · rename_i hcase
      cases hrec : overlapScan start stop tl with
      | none => rw [hrec] at h; cases h
      | some pr =>
        rw [hrec] at h
        obtain ⟨k, r⟩ := pr
        simp at h
        intro q hq
        rw [← h.1] at hq
        rcases List.mem_cons.mp hq with hq | hq
        · subst hq
          rcases hcase with hc | hc
          · exact Or.inl hc
          · exact Or.inr hc
        · exact ih hrec q hq
    · split at h
      · cases hrec : overlapScan start stop tl with
        | none => rw [hrec] at h; cases h
        | some pr =>
          rw [hrec] at h
          obtain ⟨k, r⟩ := pr
          simp at h
          intro q hq
          rw [← h.1] at hq
          exact ih hrec q hq
      · split at h
        · cases h
        · split at h
          · cases hrec : overlapScan start stop tl with
            | none => rw [hrec] at h; cases h
            | some pr =>
              rw [hrec] at h
              obtain ⟨k, r⟩ := pr
              simp at h
              intro q hq
              rw [← h.1] at hq
              exact ih hrec q hq
          · cases h

theorem foldl_erase_perm {α : Type} [DecidableEq α] :
    ∀ (xs l l' : List α), l.Perm (l' ++ xs) →
      (xs.foldl (fun acc a => acc.erase a) l).Perm l' := by
  intro xs
  induction xs with
  | nil =>
    intro l l' h
    simpa using h
  | cons a xs' ih =>
    intro l l' h
    rw [List.foldl_cons]
    apply ih
    have h1 : (l' ++ a :: xs').Perm (a :: (l' ++ xs')) := List.perm_middle
    have h2 : l.Perm (a :: (l' ++ xs')) := h.trans h1
    have h3 := h2.erase a
    rw [List.erase_cons_head] at h3
    exact h3

theorem rdInv_checkOverlapAndAdd {rd : RD} (hInv : RDInv rd) (det : Detection) :
    RDInv (checkOverlapAndAdd rd det.start det.stop det).2 := by
  cases hscan : overlapScan det.start det.stop rd.1 with
  | none =>
    simp only [checkOverlapAndAdd, hscan]
    exact hInv
  | some pr =>
    obtain ⟨kept, removed⟩ := pr
    simp only [checkOverlapAndAdd, hscan]
    have hperm := overlapScan_perm hscan
    have hkd := overlapScan_kept_disjoint hscan
    have hsymm : ∀ {x y : Nat × Nat × Detection},
        (x.2.1 ≤ y.1 ∨ y.2.1 ≤ x.1) → (y.2.1 ≤ x.1 ∨ x.2.1 ≤ y.1) := fun h => h.symm
    have hpair : (kept ++ removed).Pairwise (fun a b => a.2.1 ≤ b.1 ∨ b.2.1 ≤ a.1) :=
      (hperm.pairwise_iff hsymm).mp hInv.1
    refine ⟨?_, ?_, ?_⟩
    · rw [List.pairwise_append]
      refine ⟨(List.pairwise_append.mp hpair).1, List.pairwise_singleton _ _, ?_⟩
      intro a ha b hb
      simp only [List.mem_singleton] at hb
      subst hb
      rcases hkd a ha with h | h
      · exact Or.inr h
      · exact Or.inl h
    · have h1 : rd.2.Perm ((kept ++ removed).map (fun r => r.2.2)) :=
        hInv.2.1.trans (hperm.map _)
      rw [List.map_append] at h1
      have h2 : (removed.map (fun r => r.2.2)).Perm
          (removed.reverse.map (fun r => r.2.2)) :=
        (List.reverse_perm removed).symm.map _
      have h3 : rd.2.Perm ((kept.map (fun r => r.2.2)) ++
          (removed.reverse.map (fun r => r.2.2))) :=
        h1.trans (List.Perm.append_left _ h2)
      have hfold : removed.reverse.foldl (fun ds x => ds.erase x.2.2) rd.2 =
          (removed.reverse.map (fun r => r.2.2)).foldl (fun acc a => acc.erase a) rd.2 :=
        (List.foldl_map _ _ _ _).symm
      have hres := foldl_erase_perm (removed.reverse.map (fun r => r.2.2)) rd.2
        (kept.map (fun r => r.2.2)) h3
      rw [← hfold] at hres
      simp only [List.map_append, List.map_cons, List.map_nil]
      exact hres.append (List.Perm.refl _)
    · intro r hr
      rcases List.mem_append.mp hr with hr | hr
      · exact hInv.2.2 r (hperm.mem_iff.mpr (List.mem_append.mpr (Or.inl hr)))
      · simp only [List.mem_singleton] at hr
        subst hr
        exact ⟨rfl, rfl⟩

theorem rdInv_offerMatches {st : Anonymizer} {text : Str} {pt : PatternType}
    {wv : Bool} :
    ∀ {ms : List RMatch} {rd rd' : RD}, RDInv rd →
      offerMatches st text pt wv ms rd = .ok rd' → RDInv rd' := by
  intro ms
  induction ms with
  | nil =>
    intro rd rd' hInv h
    simp only [offerMatches, pure] at h
    cases h
    exact hInv
  | cons m rest ih =>
    intro rd rd' hInv h
    rw [offerMatches] at h
    split at h
    · cases h
    · split at h
      · exact ih hInv h
      · split at h
        · exact ih hInv h
        · exact ih (rdInv_checkOverlapAndAdd hInv
            ⟨pySlice text (matchSpan m).1 (matchSpan m).2, pt,
              (matchSpan m).1, (matchSpan m).2, none⟩) h

theorem rdInv_catalogLoop {st : Anonymizer} {text : Str} {orc : ReOracle} :
    ∀ {pts : List PatternType} {rd rd' : RD}, RDInv rd →
      catalogLoop st text orc pts rd = .ok rd' → RDInv rd' := by
  intro pts
  induction pts with
  | nil =>
    intro rd rd' hInv h
    simp only [catalogLoop, pure] at h
    cases h
    exact hInv
  | cons pt rest ih =>
    intro rd rd' hInv h
    rw [catalogLoop] at h
    split at h
    · exact ih hInv h
    · split at h
      · exact ih hInv h
      · cases ho : offerMatches st text pt true (orc.catalog pt) rd with
        | error e => rw [ho] at h; cases h
        | ok rdm =>
          rw [ho] at h
          exact ih (rdInv_offerMatches hInv ho) h

theorem rdInv_customLoop {st : Anonymizer} {text : Str} {orc : ReOracle} :
    ∀ {cps : List (Str × Str)} {i : Nat} {cache : List (Nat × Str)} {rd : RD}
      {res : RD × List (Nat × Str)}, RDInv rd →
      customLoop st text orc i cps cache rd = .ok res → RDInv res.1 := by
  intro cps
  induction cps with
  | nil =>
    intro i cache rd res hInv h
    simp only [customLoop, pure] at h
    cases h
    exact hInv
  | cons cp rest ih =>
    intro i cache rd res hInv h
    obtain ⟨rx, pfx⟩ := cp
    rw [customLoop] at h
    split at h
    · split at h
      · exact ih hInv h
      · split at h
        · cases h
        · split at h
          · cases h
          · rename_i ho
            exact ih (rdInv_offerMatches hInv ho) h
    · split at h
      · cases h
      · split at h
        · cases h
        · rename_i ho
          exact ih (rdInv_offerMatches hInv ho) h

theorem rdInv_enhancerFold (_st : Anonymizer) (dets : List Detection) :
    RDInv (dets.foldl (fun rd det =>
      if det.start < det.stop then (checkOverlapAndAdd rd det.start det.stop det).2
      else rd) ([], [])) := by
  have hbase : RDInv (([], []) : RD) := ⟨List.Pairwise.nil, List.Perm.refl _, by simp⟩
  generalize ([], []) = rd0 at hbase ⊢
  induction dets generalizing rd0 with
  | nil => exact hbase
  | cons d rest ih =>
    rw [List.foldl_cons]
    by_cases hd : d.start < d.stop
    · rw [if_pos hd]
      exact ih _ (rdInv_checkOverlapAndAdd hbase d)
    · rw [if_neg hd]
      exact ih _ hbase

/-! ## Stable sort lemmas -/

theorem insertByStart_perm (d : Detection) (l : List Detection) :
    (insertByStart d l).Perm (d :: l) := by
  induction l with
  | nil => simp [insertByStart]
  | cons e rest ih =>
    rw [insertByStart]
    by_cases he : e.start ≤ d.start
    · rw [if_pos he]
      exact (ih.cons e).trans (List.Perm.swap d e rest)
    · rw [if_neg he]

theorem pySortByStart_perm (l : List Detection) : (pySortByStart l).Perm l := by
  suffices h : ∀ (l acc : List Detection),
      (l.foldl (fun a d => insertByStart d a) acc).Perm (acc ++ l) by
    simpa using h l []
  intro l
  induction l with
  | nil => simp
  | cons d rest ih =>
    intro acc
    rw [List.foldl_cons]
    have h1 := ih (insertByStart d acc)
    have h2 : (insertByStart d acc ++ rest).Perm (acc ++ d :: rest) :=
      ((insertByStart_perm d acc).append_right rest).trans List.perm_middle.symm
    exact h1.trans h2

theorem insertByStart_sorted {l : List Detection}
    (hs : l.Pairwise (fun a b => a.start ≤ b.start)) (d : Detection) :
    (insertByStart d l).Pairwise (fun a b => a.start ≤ b.start) := by
  induction l with
  | nil => simp [insertByStart]
  | cons e rest ih =>
    rw [List.pairwise_cons] at hs
    rw [insertByStart]
    by_cases he : e.start ≤ d.start
    · rw [if_pos he]
      rw [List.pairwise_cons]
      refine ⟨?_, ih hs.2⟩
      intro a ha
      have := (insertByStart_perm d rest).mem_iff.mp ha
      rcases List.mem_cons.mp this with h | h
      · subst h; exact he
      · exact hs.1 a h
    · rw [if_neg he]
      rw [List.pairwise_cons]
      refine ⟨?_, List.pairwise_cons.mpr hs⟩
      intro a ha
      rcases List.mem_cons.mp ha with h | h
      · subst h; omega
      · exact le_trans (by omega) (hs.1 a h)

theorem pySortByStart_sorted (l : List Detection) :
    (pySortByStart l).Pairwise (fun a b => a.start ≤ b.start) := by
  suffices h : ∀ (l acc : List Detection),
      acc.Pairwise (fun a b => a.start ≤ b.start) →
      (l.foldl (fun a d => insertByStart d a) acc).Pairwise
        (fun a b => a.start ≤ b.start) by
    exact h l [] List.Pairwise.nil
  intro l
  induction l with
  | nil => intro acc h; simpa using h
  | cons d rest ih =>
    intro acc h
    rw [List.foldl_cons]
    exact ih _ (insertByStart_sorted h d)

/-! ## Detect output invariants -/

theorem detect_rdInv {st : Anonymizer} {text : Str} {orc : ReOracle}
    {dets : List Detection} {st' : Anonymizer}
    (h : st.detect text orc = .ok (dets, st')) :
    ∃ rd : RD, RDInv rd ∧ dets = pySortByStart rd.2 := by
  simp only [Anonymizer.detect] at h
  split at h
  · cases h
  · rename_i rd2 hc
    split at h
    · cases h
    · rename_i res hcu
      have h2 := rdInv_customLoop (rdInv_catalogLoop (rdInv_enhancerFold st _) hc) hcu
      simp only [Except.ok.injEq, Prod.mk.injEq] at h
      exact ⟨res.1, h2, h.1.symm⟩

theorem detect_sorted_disjoint {st : Anonymizer} {text : Str} {orc : ReOracle}
    {dets : List Detection} {st' : Anonymizer}
    (h : st.detect text orc = .ok (dets, st')) :
    dets.Pairwise (fun a b => a.start ≤ b.start) ∧
    dets.Pairwise (fun a b => a.stop ≤ b.start ∨ b.stop ≤ a.start) := by
  obtain ⟨rd, hInv, hdets⟩ := detect_rdInv h
  subst hdets
  refine ⟨pySortByStart_sorted _, ?_⟩
  have hperm := (pySortByStart_perm rd.2).trans hInv.2.1
  have hsymm : ∀ {x y : Detection},
      (x.stop ≤ y.start ∨ y.stop ≤ x.start) → (y.stop ≤ x.start ∨ x.stop ≤ y.start) :=
    fun h => h.symm
  rw [hperm.pairwise_iff hsymm]
  rw [List.pairwise_map]
  apply List.Pairwise.imp_of_mem ?_ hInv.1
  intro a b ha hb hr
  have hfa := hInv.2.2 a ha
  have hfb := hInv.2.2 b hb
  rw [hfa.1, hfa.2, hfb.1, hfb.2]
  exact hr

/-- C4.  Disjointness and order: whenever `detect` returns a detection
list (the list consumed by `anonymize` and `preview`), that list is
sorted by `start` ascending and its `[start, stop)` intervals are
pairwise non-overlapping. -/
theorem C4_detect_sorted_and_disjoint (st : Anonymizer) (text : Str)
    (orc : ReOracle) (dets : List Detection) (st' : Anonymizer)
    (h : st.detect text orc = .ok (dets, st')) :
    dets.Pairwise (fun a b => a.start ≤ b.start) ∧
    dets.Pairwise (fun a b => a.stop ≤ b.start ∨ b.stop ≤ a.start) :=
  detect_sorted_disjoint h

/-- Witness for C4: the concrete end-to-end `detect` run. -/
theorem C4_witness :
    ([⟨"alice@example.com".toList, EMAIL, 5, 22, none⟩,
      ⟨"192.168.1.5".toList, IPV4, 38, 49, none⟩] : List Detection).Pairwise
        (fun a b => a.start ≤ b.start) ∧
    ([⟨"alice@example.com".toList, EMAIL, 5, 22, none⟩,
      ⟨"192.168.1.5".toList, IPV4, 38, 49, none⟩] : List Detection).Pairwise
        (fun a b => a.stop ≤ b.start ∨ b.stop ≤ a.start) :=
  C4_detect_sorted_and_disjoint Anonymizer.init c3text c3oracle
    [⟨"alice@example.com".toList, EMAIL, 5, 22, none⟩,
     ⟨"192.168.1.5".toList, IPV4, 38, 49, none⟩]
    Anonymizer.init rfl

/-! ## Tie-break characterization (claim C5) -/

theorem overlapScan_none_of_tie {start stop : Nat} :
    ∀ {ranges : List (Nat × Nat × Detection)} {s e : Nat} {x : Detection},
      (s, e, x) ∈ ranges →
      ¬ (stop ≤ s ∨ start ≥ e) →
      ¬ (start ≤ s ∧ stop ≥ e) →
      ¬ (e - s < stop - start) →
      overlapScan start stop ranges = none := by
  intro ranges
  induction ranges with
  | nil => intro s e x hmem; simp at hmem
  | cons hd tl ih =>
    intro s e x hmem hov hnc hlen
    obtain ⟨s', e', x'⟩ := hd
    rcases List.mem_cons.mp hmem with hm | hm
    · rw [Prod.mk.injEq, Prod.mk.injEq] at hm
      obtain ⟨h1, h2, _h3⟩ := hm
      subst h1
      subst h2
      rw [overlapScan, if_neg hov, if_neg hnc]
      by_cases h3 : s ≤ start ∧ e ≥ stop
      · rw [if_pos h3]
      · rw [if_neg h3, if_neg hlen]
    · rw [overlapScan]
      have hrec := ih hm hov hnc hlen
      split
      · rw [hrec]
      · split
        · rw [hrec]
        · split
          · rfl
          · split
            · rw [hrec]
            · rfl

theorem overlapScan_all_disjoint {start stop : Nat} :
    ∀ {ranges : List (Nat × Nat × Detection)},
      (∀ r ∈ ranges, stop ≤ r.1 ∨ r.2.1 ≤ start) →
      overlapScan start stop ranges = some (ranges, []) := by
  intro ranges
  induction ranges with
  | nil => intro _; rfl
  | cons hd tl ih =>
    intro h
    obtain ⟨s, e, x⟩ := hd
    have hd1 := h (s, e, x) (List.mem_cons_self _ _)
    rw [overlapScan, if_pos (by simpa using hd1),
      ih (fun r hr => h r (List.mem_cons_of_mem _ hr))]

theorem not_mem_erase_self_of_pairwise {α : Type} [BEq α] [LawfulBEq α]
    {R : α → α → Prop} {l : List α} {a : α}
    (hp : l.Pairwise R) (hirr : ¬ R a a) : a ∉ l.erase a := by
  induction l with
  | nil => simp
  | cons b rest ih =>
    rw [List.pairwise_cons] at hp
    by_cases hb : b = a
    · subst hb
      rw [List.erase_cons_head]
      intro hmem
      exact hirr (hp.1 _ hmem)
    · rw [List.erase_cons_tail (by simpa using hb)]
      intro hmem
      rcases List.mem_cons.mp hmem with h | h
      · exact hb h.symm
      · exact ih hp.2 h

theorem overlapScan_identical {s e : Nat} {x : Detection} :
    ∀ {ranges : List (Nat × Nat × Detection)},
      (s, e, x) ∈ ranges → s < e →
      ranges.Pairwise (fun a b => a.2.1 ≤ b.1 ∨ b.2.1 ≤ a.1) →
      overlapScan s e ranges = some (ranges.erase (s, e, x), [(s, e, x)]) := by
  intro ranges
  induction ranges with
  | nil => intro hmem; simp at hmem
  | cons hd tl ih =>
    intro hmem hse hpair
    rw [List.pairwise_cons] at hpair
    by_cases hd_eq : hd = (s, e, x)
    · subst hd_eq
      rw [overlapScan, if_neg (by omega), if_pos (by omega)]
      rw [overlapScan_all_disjoint (fun r hr => (hpair.1 r hr).imp id id)]
      rw [List.erase_cons_head]
    · obtain ⟨s', e', x'⟩ := hd
      have hm : (s, e, x) ∈ tl := by
        rcases List.mem_cons.mp hmem with h | h
        · exact absurd h.symm hd_eq
        · exact h
      have hdisj := hpair.1 (s, e, x) hm
      simp only at hdisj
      rw [overlapScan, if_pos (by omega)]
      rw [ih hm hse hpair.2]
      rw [List.erase_cons_tail (by
        simp only [beq_iff_eq, Prod.mk.injEq, not_and]
        intro h1 h2 h3
        subst h1; subst h2; subst h3
        exact hd_eq rfl)]

/-- C5 (amended).  Tie-break in `_check_overlap_and_add` for a candidate
that overlaps an already-accepted span of exactly equal length: when the
two spans are *not* identical (a proper partial overlap), the candidate
is rejected and both lists are left untouched — the earlier-registered
detection wins; but when the candidate's `[start, stop)` equals the
accepted span exactly, the candidate-contains-accepted branch fires
first: the already-accepted entry is removed and the candidate is
accepted in its place. -/
theorem C5_equal_length_tie_break (rd : RD) (x cand : Detection)
    (s e start stop : Nat)
    (hmem : (s, e, x) ∈ rd.1)
    (hpair : rd.1.Pairwise (fun a b => a.2.1 ≤ b.1 ∨ b.2.1 ≤ a.1))
    (hx : (s, e, x) ≠ (start, stop, cand))
    (hov : ¬ (stop ≤ s ∨ start ≥ e))
    (hlen : stop - start = e - s)
    (hse : s < e) (hcand : start ≤ stop) :
    if start = s ∧ stop = e then
      (checkOverlapAndAdd rd start stop cand).1 = true ∧
      (s, e, x) ∉ (checkOverlapAndAdd rd start stop cand).2.1 ∧
      (start, stop, cand) ∈ (checkOverlapAndAdd rd start stop cand).2.1
    else
      checkOverlapAndAdd rd start stop cand = (false, rd) := by
  by_cases hid : start = s ∧ stop = e
  · rw [if_pos hid]
    obtain ⟨h1, h2⟩ := hid
    subst h1
    subst h2
    have hscan := overlapScan_identical hmem hse hpair
    simp only [checkOverlapAndAdd, hscan]
    refine ⟨by trivial, ?_, List.mem_append.mpr (Or.inr (by simp))⟩
    intro hmem'
    rcases List.mem_append.mp hmem' with h | h
    · exact not_mem_erase_self_of_pairwise (a := (start, stop, x)) hpair
        (by simp only; omega) h
    · simp only [List.mem_singleton] at h
      exact hx h
  · rw [if_neg hid]
    have hs_lt : s < stop := by omega
    have hstart_lt : start < e := by omega
    have hnc : ¬ (start ≤ s ∧ stop ≥ e) := by
      intro hc
      exact hid (by omega)
    have hnl : ¬ (e - s < stop - start) := by omega
    have hscan := overlapScan_none_of_tie hmem hov hnc hnl
    simp only [checkOverlapAndAdd, hscan]

/-- Counterexample to C5 as stated: a candidate whose span `[0, 2)`
coincides exactly with the span of an already-accepted detection is
*accepted* — replacing the earlier detection in both lists — rather
than rejected. -/
theorem C5_counterexample :
    checkOverlapAndAdd
        ([(0, 2, ⟨"ab".toList, EMAIL, 0, 2, none⟩)],
         [⟨"ab".toList, EMAIL, 0, 2, none⟩]) 0 2
        ⟨"ab".toList, HOSTNAME, 0, 2, none⟩
      = (true, [(0, 2, ⟨"ab".toList, HOSTNAME, 0, 2, none⟩)],
         [⟨"ab".toList, HOSTNAME, 0, 2, none⟩]) := by
  decide

/-- Witness for the amended C5: the identical-span branch on a concrete
state. -/
theorem C5_witness :
    (checkOverlapAndAdd
        ([(0, 2, ⟨"ab".toList, EMAIL, 0, 2, none⟩)],
         [⟨"ab".toList, EMAIL, 0, 2, none⟩]) 0 2
        ⟨"cd".toList, CUSTOM, 0, 2, none⟩).1 = true ∧
    ((0 : Nat), (2 : Nat), (⟨"ab".toList, EMAIL, 0, 2, none⟩ : Detection)) ∉
      (checkOverlapAndAdd
        ([(0, 2, ⟨"ab".toList, EMAIL, 0, 2, none⟩)],
         [⟨"ab".toList, EMAIL, 0, 2, none⟩]) 0 2
        ⟨"cd".toList, CUSTOM, 0, 2, none⟩).2.1 := by
  have h := C5_equal_length_tie_break
    ([(0, 2, ⟨"ab".toList, EMAIL, 0, 2, none⟩)], [⟨"ab".toList, EMAIL, 0, 2, none⟩])
    ⟨"ab".toList, EMAIL, 0, 2, none⟩ ⟨"cd".toList, CUSTOM, 0, 2, none⟩
    0 2 0 2 (by decide) (by decide) (by decide) (by decide) (by decide)
    (by decide) (by decide)
  rw [if_pos ⟨rfl, rfl⟩] at h
  exact ⟨h.1, h.2.1⟩

/-- C3.  End-to-end: on a fresh engine with all default patterns
enabled, anonymizing `"User alice@example.com logged in from
192.168.1.5"` (with the `finditer` results the catalog regexes produce
on it, `c3oracle`) yields exactly the two detections email and ipv4 —
the `HOSTNAME` match inside the email and the `USERNAME` capture
`alice` are discarded by the overlap resolver — with anonymized text
`"User [EMAIL_001] logged in from [IP_001]"` and stats
`{ipv4: 1, email: 1}`. -/
theorem C3_end_to_end :
    ∃ st' : Anonymizer,
      Anonymizer.init.anonymize c3text c3oracle = .ok
        ({ anonymized_text := "User [EMAIL_001] logged in from [IP_001]".toList
           mappings := [("192.168.1.5".toList, "[IP_001]".toList),
                        ("alice@example.com".toList, "[EMAIL_001]".toList)]
           stats := [("ipv4".toList, 1), ("email".toList, 1)]
           detections :=
             [⟨"alice@example.com".toList, EMAIL, 5, 22, some "[EMAIL_001]".toList⟩,
              ⟨"192.168.1.5".toList, IPV4, 38, 49, some "[IP_001]".toList⟩] }, st') :=
  ⟨_, rfl⟩

/-! ## Session import (claims C7, C8) -/

/-- C7 (amended).  Import failure handling: `import_mappings` returns
`False` without raising and without mutating state when the data fails
JSON parsing, and likewise when the format is not `"json"`;
`load_session_state` applied to an object without `.get` (a non-dict)
returns `False` before any mutation.  (No shape validation is performed
beyond this: a parseable non-object makes `import_mappings` raise an
uncaught `AttributeError`, a parseable object of the wrong shape is
taken as-is with result `True`, and `load_session_state` can return
`False` with the registry attributes already replaced — see the
counterexample.) -/
theorem C7_import_failure_handling (st : PyState) (data : Option PyVal)
    (fmt : Str) (v : PyVal) (n : Int) :
    (import_mappings st none "json".toList = .ok (false, st)) ∧
    (fmt ≠ "json".toList → import_mappings st data fmt = .ok (false, st)) ∧
    ((∀ kvs, v ≠ .dict kvs) → load_session_state st v = (false, st)) ∧
    (import_mappings st (some (.int n)) "json".toList = .error ()) := by
  refine ⟨rfl, ?_, ?_, rfl⟩
  · intro h
    rw [import_mappings.eq_def, if_neg h]
    rfl
  · intro h
    cases v with
    | dict kvs => exact absurd rfl (h kvs)
    | str s => rfl
    | int m => rfl
    | bool b => rfl
    | pynone => rfl
    | list xs => rfl

/-- Witness for the amended C7 at concrete inputs. -/
theorem C7_witness :
    (import_mappings {} none "json".toList = .ok (false, ({} : PyState))) ∧
    (import_mappings {} (some (.dict [])) "text".toList = .ok (false, ({} : PyState))) ∧
    (load_session_state {} (.int 3) = (false, ({} : PyState))) ∧
    (import_mappings {} (some (.int 5)) "json".toList = .error ()) := by
  have h := C7_import_failure_handling {} (some (.dict [])) "text".toList (.int 3) 5
  exact ⟨h.1, h.2.1 (by decide), h.2.2.1 (fun kvs hk => by cases hk), h.2.2.2⟩

/-- Counterexample to C7 as stated: a session-state import that fails
(returns `False`) but has already replaced `mappings` (and
`reverse_mappings`, `counters`): the `enabled_patterns` value `0` has no
`.get`, raising only after the registry attributes were assigned. -/
theorem C7_counterexample :
    (load_session_state {}
        (.dict [("mappings".toList, .dict [("x".toList, .str "y".toList)]),
                ("enabled_patterns".toList, .int 0)])).1 = false ∧
    (load_session_state {}
        (.dict [("mappings".toList, .dict [("x".toList, .str "y".toList)]),
                ("enabled_patterns".toList, .int 0)])).2.mappings ≠
      ({} : PyState).mappings := by
  constructor
  · rfl
  · intro h
    simp only [PyState.mk.injEq] at h
    cases h

/-- C8.  The claim is the code's own intent (the `except re.error:
continue` handler), but the custom-pattern compile cache defeats it: a
malformed custom regex is skipped *without* appending to
`_compiled_custom`, so for the next pattern the cache is shorter than
the loop index and the unconditional `self._compiled_custom[i]` lookup
raises an uncaught `IndexError` — `detect` aborts instead of running to
completion with the remaining well-formed patterns.  Concretely: custom
patterns `[("(", "A"), ("b", "B")]` on text `"b"` (the first regex is
malformed, the second matches) make `detect` raise. -/
theorem C8_malformed_custom_regex_aborts :
    ({ Anonymizer.init with
        custom_patterns := [("(".toList, "A".toList), ("b".toList, "B".toList)] }
      : Anonymizer).detect "b".toList
      { catalog := fun _ => [], custom := [none, some [⟨(0, 1), []⟩]] }
      = .error () := rfl

/-! ## Predicates preserved along the detect pipeline -/

theorem mem_foldl_erase {xs : List (Nat × Nat × Detection)} :
    ∀ {l : List Detection} {d : Detection},
      d ∈ xs.foldl (fun ds x => ds.erase x.2.2) l → d ∈ l := by
  induction xs with
  | nil => intro l d h; simpa using h
  | cons x xs' ih =>
    intro l d h
    rw [List.foldl_cons] at h
    exact List.mem_of_mem_erase (ih h)

theorem pred_checkOverlapAndAdd {P : Detection → Prop} {rd : RD} {s e : Nat}
    {det : Detection} (h2 : ∀ d ∈ rd.2, P d) (hdet : P det) :
    ∀ d ∈ (checkOverlapAndAdd rd s e det).2.2, P d := by
  intro d hd
  rw [checkOverlapAndAdd] at hd
  cases hscan : overlapScan s e rd.1 with
  | none =>
    rw [hscan] at hd
    exact h2 d hd
  | some pr =>
    obtain ⟨kept, removed⟩ := pr
    rw [hscan] at hd
    simp only at hd
    rcases List.mem_append.mp hd with h | h
    · exact h2 d (mem_foldl_erase h)
    · simp only [List.mem_singleton] at h
      subst h
      exact hdet

theorem exists_of_findSome {α β : Type} {f : α → Option β} :
    ∀ {l : List α} {b : β}, l.findSome? f = some b → ∃ a ∈ l, f a = some b := by
  intro l
  induction l with
  | nil => intro b h; simp [List.findSome?] at h
  | cons x xs ih =>
    intro b h
    rw [List.findSome?] at h
    cases hx : f x with
    | some b' =>
      rw [hx] at h
      have h2 : some b' = some b := h
      exact ⟨x, List.mem_cons_self _ _, hx.trans h2⟩
    | none =>
      rw [hx] at h
      obtain ⟨a, ha, hfa⟩ := ih h
      exact ⟨a, List.mem_cons_of_mem _ ha, hfa⟩

theorem matchSpan_wf {len : Nat} {m : RMatch} (h : MatchWf len m) :
    (matchSpan m).1 ≤ (matchSpan m).2 ∧ (matchSpan m).2 ≤ len := by
  rw [matchSpan]
  cases hf : m.groups.findSome? id with
  | none => exact ⟨h.1, h.2.1⟩
  | some pr =>
    obtain ⟨g, hg, hgeq⟩ := exists_of_findSome hf
    exact h.2.2 pr (List.mem_filterMap.mpr ⟨g, hg, hgeq⟩)

theorem pred_offerMatches {P : Detection → Prop} {st : Anonymizer} {text : Str}
    {pt : PatternType} {wv : Bool} :
    ∀ {ms : List RMatch} {rd rd' : RD},
      (∀ m ∈ ms, P ⟨pySlice text (matchSpan m).1 (matchSpan m).2, pt,
        (matchSpan m).1, (matchSpan m).2, none⟩) →
      (∀ d ∈ rd.2, P d) →
      offerMatches st text pt wv ms rd = .ok rd' → ∀ d ∈ rd'.2, P d := by
  intro ms
  induction ms with
  | nil =>
    intro rd rd' _hm h2 h
    simp only [offerMatches, pure] at h
    cases h
    exact h2
  | cons m rest ih =>
    intro rd rd' hm h2 h
    rw [offerMatches] at h
    split at h
    · cases h
    · split at h
      · exact ih (fun m' hm' => hm m' (List.mem_cons_of_mem _ hm')) h2 h
      · split at h
        · exact ih (fun m' hm' => hm m' (List.mem_cons_of_mem _ hm')) h2 h
        · exact ih (fun m' hm' => hm m' (List.mem_cons_of_mem _ hm'))
            (pred_checkOverlapAndAdd h2 (hm m (List.mem_cons_self _ _))) h

theorem pred_catalogLoop {P : Detection → Prop} {st : Anonymizer} {text : Str}
    {orc : ReOracle}
    (hm : ∀ pt : PatternType, ∀ m ∈ orc.catalog pt,
      P ⟨pySlice text (matchSpan m).1 (matchSpan m).2, pt,
        (matchSpan m).1, (matchSpan m).2, none⟩) :
    ∀ {pts : List PatternType} {rd rd' : RD},
      (∀ d ∈ rd.2, P d) → catalogLoop st text orc pts rd = .ok rd' →
      ∀ d ∈ rd'.2, P d := by
  intro pts
  induction pts with
  | nil =>
    intro rd rd' h2 h
    simp only [catalogLoop, pure] at h
    cases h
    exact h2
  | cons pt rest ih =>
    intro rd rd' h2 h
    rw [catalogLoop] at h
    split at h
    · exact ih h2 h
    · split at h
      · exact ih h2 h
      · split at h
        · cases h
        · rename_i ho
          exact ih (pred_offerMatches (hm pt) h2 ho) h

theorem pred_customLoop {P : Detection → Prop} {st : Anonymizer} {text : Str}
    {orc : ReOracle}
    (hm : ∀ o ∈ orc.custom, ∀ ms : List RMatch, o = some ms → ∀ m ∈ ms,
      P ⟨pySlice text (matchSpan m).1 (matchSpan m).2, CUSTOM,
        (matchSpan m).1, (matchSpan m).2, none⟩) :
    ∀ {cps : List (Str × Str)} {i : Nat} {cache : List (Nat × Str)} {rd : RD}
      {res : RD × List (Nat × Str)},
      (∀ d ∈ rd.2, P d) → customLoop st text orc i cps cache rd = .ok res →
      ∀ d ∈ res.1.2, P d := by
  have hms : ∀ j : Nat, ∀ m ∈ (((orc.custom.get? j).getD none).getD []),
      P ⟨pySlice text (matchSpan m).1 (matchSpan m).2, CUSTOM,
        (matchSpan m).1, (matchSpan m).2, none⟩ := by
    intro j m hmem
    cases hj : orc.custom.get? j with
    | none => rw [hj] at hmem; simp at hmem
    | some o =>
      rw [hj] at hmem
      cases o with
      | none => simp at hmem
      | some ms =>
        simp only [Option.getD_some] at hmem
        exact hm (some ms) (List.get?_mem hj) ms rfl m hmem
  intro cps
  induction cps with
  | nil =>
    intro i cache rd res h2 h
    simp only [customLoop, pure] at h
    cases h
    exact h2
  | cons cp rest ih =>
    intro i cache rd res h2 h
    obtain ⟨rx, pfx⟩ := cp
    rw [customLoop] at h
    split at h
    · split at h
      · exact ih h2 h
      · split at h
        · cases h
        · rename_i pr hpr
          split at h
          · cases h
          · rename_i ho
            exact ih (pred_offerMatches (hms pr.1) h2 ho) h
    · split at h
      · cases h
      · rename_i pr hpr
        split at h
        · cases h
        · rename_i ho
          exact ih (pred_offerMatches (hms pr.1) h2 ho) h

theorem pred_enhFold {P : Detection → Prop} :
    ∀ {l : List Detection} (rd0 : RD),
      (∀ d ∈ l, d.start < d.stop → P d) → (∀ d ∈ rd0.2, P d) →
      ∀ d ∈ (l.foldl (fun rd det =>
        if det.start < det.stop then (checkOverlapAndAdd rd det.start det.stop det).2
        else rd) rd0).2, P d := by
  intro l
  induction l with
  | nil => intro rd0 _hl h0; simpa using h0
  | cons x l' ih =>
    intro rd0 hl h0
    rw [List.foldl_cons]
    by_cases hx : x.start < x.stop
    · rw [if_pos hx]
      exact ih _ (fun d hd => hl d (List.mem_cons_of_mem _ hd))
        (pred_checkOverlapAndAdd h0 (hl x (List.mem_cons_self _ _) hx))
    · rw [if_neg hx]
      exact ih _ (fun d hd => hl d (List.mem_cons_of_mem _ hd)) h0

theorem detectWithEnhancers_mem {st : Anonymizer} :
    ∀ {enh : List EnhRes} {acc : List Detection} {d : Detection},
      d ∈ enh.foldl (fun acc r =>
        if st.enabled_patterns ((ptypeOfValue (toPatternTypeStr r.entity_type)).getD CUSTOM)
            = false then acc
        else if st.shouldPreserve r.value then acc
        else acc ++ [⟨r.value, (ptypeOfValue (toPatternTypeStr r.entity_type)).getD CUSTOM,
          r.start, r.stop, none⟩]) acc →
      d ∈ acc ∨ ∃ r ∈ enh, ∃ pt, d = ⟨r.value, pt, r.start, r.stop, none⟩ := by
  intro enh
  induction enh with
  | nil => intro acc d h; exact Or.inl h
  | cons r rest ih =>
    intro acc d h
    rw [List.foldl_cons] at h
    rcases ih h with h' | h'
    · split at h'
      · exact Or.inl h'
      · split at h'
        · exact Or.inl h'
        · rcases List.mem_append.mp h' with h'' | h''
          · exact Or.inl h''
          · simp only [List.mem_singleton] at h''
            exact Or.inr ⟨r, List.mem_cons_self _ _, _, h''⟩
    · obtain ⟨r', hr', pt', he⟩ := h'
      exact Or.inr ⟨r', List.mem_cons_of_mem _ hr', pt', he⟩

theorem detect_pred {P : Detection → Prop} {st : Anonymizer} {text : Str}
    {orc : ReOracle} {dets : List Detection} {st' : Anonymizer}
    (hcat : ∀ pt : PatternType, ∀ m ∈ orc.catalog pt,
      P ⟨pySlice text (matchSpan m).1 (matchSpan m).2, pt,
        (matchSpan m).1, (matchSpan m).2, none⟩)
    (hcust : ∀ o ∈ orc.custom, ∀ ms : List RMatch, o = some ms → ∀ m ∈ ms,
      P ⟨pySlice text (matchSpan m).1 (matchSpan m).2, CUSTOM,
        (matchSpan m).1, (matchSpan m).2, none⟩)
    (henh : ∀ r ∈ orc.enh, ∀ pt : PatternType, r.start < r.stop →
      P ⟨r.value, pt, r.start, r.stop, none⟩)
    (h : st.detect text orc = .ok (dets, st')) :
    ∀ d ∈ dets, P d := by
  simp only [Anonymizer.detect] at h
  split at h
  · cases h
  · rename_i rd2 hc
    split at h
    · cases h
    · rename_i res hcu
      simp only [Except.ok.injEq, Prod.mk.injEq] at h
      have h1 : ∀ d ∈ (st.detectWithEnhancers orc.enh), d.start < d.stop → P d := by
        intro d hd hlt
        rcases detectWithEnhancers_mem hd with h' | h'
        · simp at h'
        · obtain ⟨r, hr, pt, he⟩ := h'
          subst he
          exact henh r hr pt hlt
      have h2 := pred_enhFold ([], []) h1
        (fun d hd => absurd hd (List.not_mem_nil d))
      have h3 := pred_catalogLoop hcat h2 hc
      have h4 := pred_customLoop hcust h3 hcu
      intro d hd
      rw [← h.1] at hd
      exact h4 d ((pySortByStart_perm _).mem_iff.mp hd)

theorem detect_pdet {st : Anonymizer} {text : Str} {orc : ReOracle}
    {dets : List Detection} {st' : Anonymizer}
    (hwf : orc.Wf text.length) (henh : ∀ r ∈ orc.enh, EnhWf text r)
    (h : st.detect text orc = .ok (dets, st')) : ∀ d ∈ dets, PDet text d := by
  refine detect_pred (P := PDet text) ?_ ?_ ?_ h
  · intro pt m hm
    obtain ⟨h1, h2⟩ := matchSpan_wf (hwf.1 pt m hm)
    exact ⟨h1, h2, rfl⟩
  · intro o ho ms hms m hm
    obtain ⟨h1, h2⟩ := matchSpan_wf (hwf.2 o ho ms hms m hm)
    exact ⟨h1, h2, rfl⟩
  · intro r hr pt hlt
    obtain ⟨h1, h2⟩ := henh r hr
    exact ⟨Nat.le_of_lt hlt, h1, h2⟩

theorem detect_placeholder_none {st : Anonymizer} {text : Str} {orc : ReOracle}
    {dets : List Detection} {st' : Anonymizer}
    (h : st.detect text orc = .ok (dets, st')) :
    ∀ d ∈ dets, d.placeholder = none :=
  detect_pred (fun _pt _m _hm => rfl) (fun _o _ho _ms _hms _m _hm => rfl)
    (fun _r _hr _pt _hlt => rfl) h

theorem detect_state_fields {st : Anonymizer} {text : Str} {orc : ReOracle}
    {dets : List Detection} {st' : Anonymizer}
    (h : st.detect text orc = .ok (dets, st')) :
    st'.mappings = st.mappings ∧ st'.reverse_mappings = st.reverse_mappings ∧
    st'.counters = st.counters ∧ st'.stats = st.stats ∧
    st'.enabled_patterns = st.enabled_patterns ∧
    st'.custom_patterns = st.custom_patterns ∧
    st'.preserve_list = st.preserve_list := by
  simp only [Anonymizer.detect] at h
  split at h
  · cases h
  · rename_i rd2 hc
    split at h
    · cases h
    · rename_i res hcu
      simp only [Except.ok.injEq, Prod.mk.injEq] at h
      rw [← h.2]
      exact ⟨rfl, rfl, rfl, rfl, rfl, rfl, rfl⟩

/-- C9 (amended).  Detection span invariant: for well-formed oracle
matches (spans inside the text, as `re` guarantees) and honest enhancer
results, every detection returned by `detect` satisfies
`0 ≤ start ≤ end ≤ len(text)` with `value` equal to the text at the
span; the value/span come from the first capture group that
participated in the match (which the code selects by `is not None`, and
which may be the *empty* string — so `start = end` is possible and
`start < end` does not hold in general; see the counterexample). -/
theorem C9_detection_span_invariant (st : Anonymizer) (text : Str)
    (orc : ReOracle) (dets : List Detection) (st' : Anonymizer)
    (hwf : orc.Wf text.length) (henh : ∀ r ∈ orc.enh, EnhWf text r)
    (h : st.detect text orc = .ok (dets, st')) :
    ∀ d ∈ dets, d.start ≤ d.stop ∧ d.stop ≤ text.length ∧
      d.value = pySlice text d.start d.stop :=
  detect_pdet hwf henh h

/-- Counterexample to C9 as stated: the custom regex `()a` on text
`"a"` matches `[0,1)` with capture group 1 participating as the empty
string at `[0,0)`; the capture-group handling selects it (first
non-`None`, not first non-empty), producing a detection with
`start = end = 0` and empty value — refuting `start < end` (and the
first non-*empty*-group reading). -/
theorem C9_counterexample :
    ({ Anonymizer.init with custom_patterns := [("()a".toList, "X".toList)] }
      : Anonymizer).detect "a".toList
      { catalog := fun _ => [], custom := [some [⟨(0, 1), [some (0, 0)]⟩]] }
      = .ok ([⟨[], CUSTOM, 0, 0, none⟩],
        { Anonymizer.init with
            custom_patterns := [("()a".toList, "X".toList)],
            compiled_custom := [(0, "X".toList)] }) ∧
    ¬ ((0 : Nat) < (0 : Nat)) :=
  ⟨rfl, by omega⟩

/-- Witness for the amended C9: the spans of the end-to-end example. -/
theorem C9_witness :
    (5 : Nat) ≤ 22 ∧ (22 : Nat) ≤ c3text.length ∧
      "alice@example.com".toList = pySlice c3text 5 22 := by
  have h := C9_detection_span_invariant Anonymizer.init c3text c3oracle
    [⟨"alice@example.com".toList, EMAIL, 5, 22, none⟩,
     ⟨"192.168.1.5".toList, IPV4, 38, 49, none⟩] Anonymizer.init
    ?_ ?_ rfl
  · exact h ⟨"alice@example.com".toList, EMAIL, 5, 22, none⟩
      (List.mem_cons_self _ _)
  · constructor
    · intro pt m hm
      cases pt <;> simp only [c3oracle, List.mem_singleton] at hm <;>
        first
        | exact absurd hm (List.not_mem_nil m)
        | (subst hm; exact ⟨by decide, by decide, by decide⟩)
    · intro o ho ms hms m hm
      simp only [c3oracle] at ho
      exact absurd ho (List.not_mem_nil o)
  · intro r hr
    simp only [c3oracle] at hr
    exact absurd hr (List.not_mem_nil r)

/-- C10.  Read-only detection: `detect` and `preview` leave the
placeholder registry untouched — `mappings`, `reverse_mappings` and
`counters` are identical before and after — and no detection they
return carries an assigned placeholder. -/
theorem C10_detect_preview_read_only (st : Anonymizer) (text : Str)
    (orc : ReOracle) :
    (∀ dets st', st.detect text orc = .ok (dets, st') →
      st'.mappings = st.mappings ∧ st'.reverse_mappings = st.reverse_mappings ∧
      st'.counters = st.counters ∧ ∀ d ∈ dets, d.placeholder = none) ∧
    (∀ pv st', st.preview text orc = .ok (pv, st') →
      st'.mappings = st.mappings ∧ st'.reverse_mappings = st.reverse_mappings ∧
      st'.counters = st.counters ∧ ∀ d ∈ pv.detections, d.placeholder = none) := by
  constructor
  · intro dets st' h
    have hf := detect_state_fields h
    exact ⟨hf.1, hf.2.1, hf.2.2.1, detect_placeholder_none h⟩
  · intro pv st' h
    simp only [Anonymizer.preview] at h
    split at h
    · cases h
    · rename_i pr hd
      simp only [Except.ok.injEq, Prod.mk.injEq] at h
      have hf := detect_state_fields hd
      have hph := detect_placeholder_none hd
      rw [← h.2]
      refine ⟨hf.1, hf.2.1, hf.2.2.1, ?_⟩
      rw [← h.1]
      exact hph

/-- Witness for C10: the end-to-end run leaves the fresh registry empty
and returns placeholder-free detections. -/
theorem C10_witness :
    Anonymizer.init.detect c3text c3oracle =
      .ok ([⟨"alice@example.com".toList, EMAIL, 5, 22, none⟩,
            ⟨"192.168.1.5".toList, IPV4, 38, 49, none⟩], Anonymizer.init) ∧
    ∀ d ∈ ([⟨"alice@example.com".toList, EMAIL, 5, 22, none⟩,
            ⟨"192.168.1.5".toList, IPV4, 38, 49, none⟩] : List Detection),
      d.placeholder = none :=
  ⟨rfl, ((C10_detect_preview_read_only Anonymizer.init c3text c3oracle).1 _ _ rfl).2.2.2⟩

/-! ## Slice and infix lemmas (round-trip groundwork) -/

theorem pySlice_infix (T : Str) (a b : Nat) : pySlice T a b <:+: T :=
  ((List.take_prefix _ _).isInfix).trans (List.drop_suffix a T).isInfix

theorem drop_pySlice_eq {T : Str} {a m : Nat} (h : a ≤ m) :
    T.drop m = (T.drop a).drop (m - a) := by
  rw [List.drop_drop]
  congr 1
  omega

theorem pySlice_merge {T : Str} {a m b : Nat} (h1 : a ≤ m) (h2 : m ≤ b) :
    pySlice T a m ++ pySlice T m b = pySlice T a b := by
  rw [pySlice, pySlice, pySlice, drop_pySlice_eq h1]
  have hsum : b - a = (m - a) + (b - m) := by omega
  rw [hsum, List.take_add]

theorem pySlice_append_drop {T : Str} {a m : Nat} (h1 : a ≤ m) :
    pySlice T a m ++ T.drop m = T.drop a := by
  rw [pySlice, drop_pySlice_eq h1]
  exact List.take_append_drop _ _

theorem pySlice_zero_len (T : Str) {b : Nat} (h : T.length ≤ b) :
    pySlice T 0 b = T := by
  rw [pySlice, List.drop_zero]
  exact List.take_of_length_le (by omega)

theorem infix_of_drop {x T : Str} (h : x <:+: T) (i : Nat) :
    x.drop i <:+: T :=
  (List.drop_suffix i x).isInfix.trans h

theorem prefix_within_text {pat x T : Str} (h : pat <+: x) (hx : x <:+: T) :
    pat <:+: T :=
  h.isInfix.trans hx

theorem prefix_append_long {pat x b : Str} (h : pat <+: x ++ b)
    (hl : x.length ≤ pat.length) : ∃ t, pat = x ++ t ∧ t <+: b := by
  have he := List.prefix_iff_eq_take.mp h
  rw [List.take_append_eq_append_take, List.take_of_length_le hl] at he
  exact ⟨List.take (pat.length - x.length) b, he, List.take_prefix _ _⟩

theorem prefix_append_short {pat x b : Str} (h : pat <+: x ++ b)
    (hl : pat.length ≤ x.length) : pat <+: x := by
  have he := List.prefix_iff_eq_take.mp h
  rw [List.take_append_eq_append_take] at he
  have h0 : pat.length - x.length = 0 := by omega
  rw [h0, List.take_zero, List.append_nil] at he
  exact List.prefix_iff_eq_take.mpr he

/-! ## Placeholder-shape arguments -/

theorem shapeGood_ne_nil {p : Str} (h : shapeGood p) : p ≠ [] := by
  obtain ⟨inner, hp, _⟩ := h
  rw [hp]
  simp

theorem shapeGood_length {p : Str} (h : shapeGood p) : 2 ≤ p.length := by
  obtain ⟨inner, hp, _⟩ := h
  rw [hp]
  simp only [List.length_cons, List.length_append, List.length_singleton]
  omega

theorem shapeGood_head {p : Str} (h : shapeGood p) :
    ∃ q, p = '[' :: q ∧ '[' ∉ q := by
  obtain ⟨inner, hp, hbf⟩ := h
  refine ⟨inner ++ [']'], hp, ?_⟩
  intro hm
  rcases List.mem_append.mp hm with hm | hm
  · exact hbf.1 hm
  · simp at hm

theorem shapeGood_no_bracket_tail {pat x y : Str} (h : shapeGood pat)
    (he : pat = x ++ y) (hx : x ≠ []) : '[' ∉ y := by
  obtain ⟨q, hp, hq⟩ := shapeGood_head h
  intro hy
  cases x with
  | nil => exact hx rfl
  | cons c x' =>
    rw [hp] at he
    simp only [List.cons_append, List.cons.injEq] at he
    apply hq
    rw [he.2]
    exact List.mem_append.mpr (Or.inr hy)

theorem mem_of_eq_append_cons {c : Char} :
    ∀ {w u z : Str}, u ++ [c] = w ++ c :: z → z ≠ [] → c ∈ u := by
  intro w
  induction w with
  | nil =>
    intro u z h hz
    rw [List.nil_append] at h
    cases u with
    | nil =>
      simp only [List.nil_append, List.cons.injEq] at h
      exact absurd h.2.symm hz
    | cons c0 u' =>
      simp only [List.cons_append, List.cons.injEq] at h
      rw [h.1]
      exact List.mem_cons_self _ _
  | cons c1 w' ih =>
    intro u z h hz
    cases u with
    | nil =>
      simp only [List.nil_append, List.cons_append, List.cons.injEq] at h
      exact absurd h.2.symm (by simp)
    | cons c0 u' =>
      simp only [List.cons_append, List.cons.injEq] at h
      exact List.mem_cons_of_mem _ (ih h.2 hz)

theorem no_match_in_text_piece {T pat x q w : Str}
    (hshape : shapeGood pat) (hT : ¬ pat <:+: T)
    (hx : x <:+: T) (hxne : x ≠ []) (hq : shapeGood q) :
    ¬ pat <+: (x ++ (q ++ w)) := by
  intro h
  by_cases hl : pat.length ≤ x.length
  · exact hT (prefix_within_text (prefix_append_short h hl) hx)
  · obtain ⟨t, hpt, htq⟩ := prefix_append_long h (by omega)
    have htne : t ≠ [] := by
      intro he
      rw [he, List.append_nil] at hpt
      rw [hpt] at hl
      omega
    have hbr : '[' ∈ t := by
      cases t with
      | nil => exact absurd rfl htne
      | cons c t' =>
        obtain ⟨qq, hq1, _⟩ := shapeGood_head hq
        obtain ⟨r, hr⟩ := htq
        rw [hq1, List.cons_append, List.cons_append] at hr
        injection hr with h1 _
        rw [h1]
        exact List.mem_cons_self _ _
    exact shapeGood_no_bracket_tail hshape hpt hxne hbr

theorem no_match_at_other_placeholder {pat p w : Str}
    (hpat : shapeGood pat) (hp : shapeGood p) (hne : pat ≠ p) :
    ¬ pat <+: (p ++ w) := by
  intro h
  obtain ⟨A, hA, hbA⟩ := hpat
  obtain ⟨B, hB, hbB⟩ := hp
  by_cases hl : pat.length ≤ p.length
  · have hpp := prefix_append_short h hl
    by_cases heq : pat.length = p.length
    · exact hne (hpp.eq_of_length heq)
    · rw [hA, hB] at hpp
      obtain ⟨r, hr⟩ := hpp
      simp only [List.cons_append] at hr
      injection hr with _ hr2
      have hlen : (A ++ [']']).length ≤ B.length := by
        have l1 : pat.length = A.length + 2 := by
          rw [hA]; simp only [List.length_cons, List.length_append]; simp
        have l2 : p.length = B.length + 2 := by
          rw [hB]; simp only [List.length_cons, List.length_append]; simp
        simp only [List.length_append, List.length_singleton]
        omega
      have hpre : (A ++ [']']) <+: B := prefix_append_short ⟨r, hr2⟩ hlen
      exact hbB.2 (hpre.mem (List.mem_append.mpr (Or.inr (by simp))))
  · obtain ⟨t, hpt, _⟩ := prefix_append_long h (by omega)
    have htne : t ≠ [] := by
      intro he
      rw [he, List.append_nil] at hpt
      exact hne hpt
    rw [hA, hB] at hpt
    simp only [List.cons_append, List.cons.injEq, true_and, List.append_assoc,
      List.singleton_append] at hpt
    exact hbA.2 (mem_of_eq_append_cons hpt htne)

theorem no_match_inside_placeholder {pat p w : Str} {j : Nat}
    (hpat : shapeGood pat) (hp : shapeGood p) (hj1 : 1 ≤ j) (hj2 : j < p.length) :
    ¬ pat <+: (p.drop j ++ w) := by
  intro h
  obtain ⟨A, hA, _⟩ := hpat
  obtain ⟨B, hB, hbB⟩ := hp
  have hd : p.drop j = (B ++ [']']).drop (j - 1) := by
    rw [hB]
    cases j with
    | zero => omega
    | succ k => simp
  cases hdp : p.drop j with
  | nil =>
    have := congrArg List.length hdp
    simp only [List.length_drop, List.length_nil] at this
    omega
  | cons c rest' =>
    have hc : c ∈ B ++ [']'] := by
      have hm : c ∈ (B ++ [']']).drop (j - 1) := by
        rw [← hd, hdp]
        exact List.mem_cons_self _ _
      exact (List.drop_suffix _ _).mem hm
    have hcne : c ≠ '[' := by
      intro he
      subst he
      rcases List.mem_append.mp hc with hm | hm
      · exact hbB.1 hm
      · simp at hm
    rw [hdp] at h
    obtain ⟨r, hr⟩ := h
    rw [hA] at hr
    simp only [List.cons_append] at hr
    injection hr with h1 _
    exact hcne h1.symm

theorem drop_ne_nil_of_lt {a : Str} {i : Nat} (h : i < a.length) :
    a.drop i ≠ [] := by
  intro he
  have := congrArg List.length he
  simp only [List.length_drop, List.length_nil] at this
  omega

theorem no_match_positions_slice {T pat q w a : Str}
    (hshape : shapeGood pat) (hT : ¬ pat <:+: T) (ha : a <:+: T)
    (hq : shapeGood q) :
    ∀ i, i < a.length → ¬ pat <+: (a.drop i ++ (q ++ w)) := by
  intro i hi
  exact no_match_in_text_piece hshape hT (infix_of_drop ha i)
    (drop_ne_nil_of_lt hi) hq

theorem no_match_positions_slice_ph {T pat p w a : Str}
    (hshape : shapeGood pat) (hT : ¬ pat <:+: T) (ha : a <:+: T)
    (hp : shapeGood p) (hne : pat ≠ p) :
    ∀ i, i < (a ++ p).length → ¬ pat <+: ((a ++ p).drop i ++ w) := by
  intro i hi h
  rw [List.drop_append_eq_append_drop] at h
  by_cases hia : i < a.length
  · have h0 : i - a.length = 0 := by omega
    rw [h0, List.drop_zero, List.append_assoc] at h
    exact no_match_in_text_piece hshape hT (infix_of_drop ha i)
      (drop_ne_nil_of_lt hia) hp h
  · have h1 : a.drop i = [] := List.drop_eq_nil_of_le (by omega)
    rw [h1, List.nil_append] at h
    by_cases hj : i - a.length = 0
    · rw [hj, List.drop_zero] at h
      exact no_match_at_other_placeholder hshape hp hne h
    · rw [List.length_append] at hi
      exact no_match_inside_placeholder hshape hp (by omega) (by omega) h

/-! ## `str.replace` scanning lemmas -/

theorem replaceAllPosF_stable {pat v : Str} :
    ∀ (f : Nat) (s : Str) (g : Nat), s.length ≤ f → s.length ≤ g →
      replaceAllPosF pat v f s = replaceAllPosF pat v g s := by
  intro f
  induction f with
  | zero =>
    intro s g hf _
    have hs : s = [] := List.eq_nil_of_length_eq_zero (Nat.le_zero.mp hf)
    subst hs
    rw [replaceAllPosF]
    cases g with
    | zero => rfl
    | succ g' => rw [replaceAllPosF]
  | succ f' ih =>
    intro s g hf hg
    cases s with
    | nil =>
      rw [replaceAllPosF]
      cases g with
      | zero => rfl
      | succ g' => rw [replaceAllPosF]
    | cons c rest =>
      rw [List.length_cons] at hf hg
      cases g with
      | zero => omega
      | succ g' =>
        rw [replaceAllPosF, replaceAllPosF]
        by_cases hp : pat <+: (c :: rest)
        · rw [if_pos hp, if_pos hp]
          congr 1
          refine ih _ _ ?_ ?_ <;>
            simp only [List.length_drop] <;> omega
        · rw [if_neg hp, if_neg hp]
          congr 1
          exact ih rest g' (by omega) (by omega)

theorem replaceAllPos_append_no_match {pat v : Str} :
    ∀ (a b : Str), (∀ i, i < a.length → ¬ pat <+: (a.drop i ++ b)) →
      replaceAllPos pat v (a ++ b) = a ++ replaceAllPos pat v b := by
  intro a
  induction a with
  | nil => intro b _; simp
  | cons c a' ih =>
    intro b hno
    show replaceAllPosF pat v ((c :: a') ++ b).length ((c :: a') ++ b)
      = (c :: a') ++ replaceAllPos pat v b
    rw [List.cons_append, List.length_cons, replaceAllPosF]
    rw [if_neg (by
      have := hno 0 (by simp)
      simpa using this)]
    rw [List.cons_append]
    congr 1
    exact ih b (fun i hi => by
      have := hno (i + 1) (by simp; omega)
      simpa using this)

theorem replaceAllPos_hit {pat v : Str} (hpat : pat ≠ []) (rest : Str) :
    replaceAllPos pat v (pat ++ rest) = v ++ replaceAllPos pat v rest := by
  cases pat with
  | nil => exact absurd rfl hpat
  | cons c p' =>
    show replaceAllPosF (c :: p') v ((c :: p') ++ rest).length ((c :: p') ++ rest)
      = v ++ replaceAllPos (c :: p') v rest
    rw [List.cons_append, List.length_cons, replaceAllPosF]
    rw [if_pos (by rw [← List.cons_append]; exact List.prefix_append _ _)]
    rw [List.length_cons, Nat.add_sub_cancel, List.drop_left]
    congr 1
    exact replaceAllPosF_stable _ _ _ (by simp) (Nat.le_refl _)

theorem replaceAllPos_no_occ {pat v : Str} :
    ∀ (s : Str), (∀ i, i < s.length → ¬ pat <+: s.drop i) →
      replaceAllPos pat v s = s := by
  intro s
  induction s with
  | nil => intro _; rfl
  | cons c s' ih =>
    intro hno
    show replaceAllPosF pat v (c :: s').length (c :: s') = c :: s'
    rw [List.length_cons, replaceAllPosF]
    rw [if_neg (by
      have := hno 0 (by simp)
      simpa using this)]
    congr 1
    exact ih (fun i hi => by
      have := hno (i + 1) (by simp; omega)
      simpa using this)

/-! ## Stage lemmas -/

theorem spansWf_mono {T : Str} :
    ∀ {spans : List (Nat × Nat × Str)} {pos pos' : Nat},
      SpansWf T spans pos → pos' ≤ pos → SpansWf T spans pos' := by
  intro spans
  cases spans with
  | nil => intro pos pos' h hle; exact le_trans hle h
  | cons sp rest =>
    obtain ⟨s, e, p⟩ := sp
    intro pos pos' h hle
    exact ⟨le_trans hle h.1, h.2.1, h.2.2⟩

theorem spansWf_filter {T : Str} (f : Nat × Nat × Str → Bool) :
    ∀ {spans : List (Nat × Nat × Str)} {pos : Nat},
      SpansWf T spans pos → SpansWf T (spans.filter f) pos := by
  intro spans
  induction spans with
  | nil => intro pos h; exact h
  | cons sp rest ih =>
    obtain ⟨s, e, p⟩ := sp
    intro pos h
    rw [List.filter_cons]
    by_cases hf : f (s, e, p)
    · rw [if_pos hf]
      exact ⟨h.1, h.2.1, ih h.2.2⟩
    · rw [if_neg hf]
      exact spansWf_mono (ih h.2.2) (le_trans h.1 h.2.1)

theorem spansWf_le_length {T : Str} :
    ∀ {spans : List (Nat × Nat × Str)} {pos : Nat},
      SpansWf T spans pos → pos ≤ T.length := by
  intro spans
  induction spans with
  | nil => intro pos h; exact h
  | cons sp rest ih =>
    obtain ⟨s, e, p⟩ := sp
    intro pos h
    exact le_trans h.1 (le_trans h.2.1 (ih h.2.2))

theorem stage_merge {T : Str} :
    ∀ {spans : List (Nat × Nat × Str)} {pos m : Nat},
      SpansWf T spans m → pos ≤ m →
      pySlice T pos m ++ stage T spans m = stage T spans pos := by
  intro spans
  cases spans with
  | nil =>
    intro pos m h hle
    exact pySlice_append_drop hle
  | cons sp rest =>
    obtain ⟨s, e, p⟩ := sp
    intro pos m h hle
    simp only [stage]
    rw [← List.append_assoc, ← List.append_assoc]
    rw [pySlice_merge hle h.1]

/-- The central replacement lemma: replacing placeholder `pat` by `v`
in a staged string flips exactly the spans standing at `pat`, provided
`pat` is placeholder-shaped, does not occur in the original text, all
staged placeholders are placeholder-shaped, and `v` is the original
text of every span standing at `pat`. -/
theorem replaceAll_stage {T pat v : Str} (hshape : shapeGood pat)
    (hT : ¬ pat <:+: T) :
    ∀ (spans : List (Nat × Nat × Str)) (pos : Nat),
      SpansWf T spans pos →
      (∀ sp ∈ spans, shapeGood sp.2.2) →
      (∀ sp ∈ spans, sp.2.2 = pat → pySlice T sp.1 sp.2.1 = v) →
      replaceAll (stage T spans pos) pat v
        = stage T (spans.filter (fun sp => sp.2.2 ≠ pat)) pos := by
  have hpne : pat ≠ [] := shapeGood_ne_nil hshape
  intro spans
  induction spans with
  | nil =>
    intro pos hwf _ _
    rw [List.filter_nil, stage, replaceAll, if_neg hpne]
    apply replaceAllPos_no_occ
    intro i _ h
    apply hT
    exact prefix_within_text h (infix_of_drop (List.drop_suffix pos T).isInfix i)
  | cons sp rest ih =>
    obtain ⟨s, e, p⟩ := sp
    intro pos hwf hshapes hcons
    obtain ⟨hps, hse, hwrest⟩ := hwf
    have hsliceinf : pySlice T pos s <:+: T := pySlice_infix T pos s
    have hpshape : shapeGood p := hshapes (s, e, p) (List.mem_cons_self _ _)
    have hrec := ih e hwrest
      (fun sp hm => hshapes sp (List.mem_cons_of_mem _ hm))
      (fun sp hm hp => hcons sp (List.mem_cons_of_mem _ hm) hp)
    rw [replaceAll, if_neg hpne] at hrec
    rw [stage, replaceAll, if_neg hpne, List.filter_cons]
    by_cases hpp : p = pat
    · subst hpp
      have hv : pySlice T s e = v := hcons (s, e, p) (List.mem_cons_self _ _) rfl
      rw [List.append_assoc]
      rw [replaceAllPos_append_no_match _ _
        (no_match_positions_slice hshape hT hsliceinf hpshape)]
      rw [replaceAllPos_hit hpne, hrec]
      rw [if_neg (by simp)]
      rw [← hv]
      rw [stage_merge (spansWf_filter _ hwrest) hse]
      rw [stage_merge (spansWf_mono (spansWf_filter _ hwrest) hse) hps]
    · rw [replaceAllPos_append_no_match _ _
        (no_match_positions_slice_ph hshape hT hsliceinf hpshape
          (fun he => hpp he.symm))]
      rw [hrec]
      rw [if_pos (by simp [hpp])]
      rw [stage]

/-! ## Bounded-stage lemmas and the substitution fold -/

theorem pySlice_zero_take (T : Str) (B : Nat) : pySlice T 0 B = T.take B := by
  rw [pySlice, List.drop_zero, Nat.sub_zero]

theorem stageB_append_last {T : Str} {s e : Nat} {p : Str} :
    ∀ (spans : List (Nat × Nat × Str)) (pos B : Nat),
      stageB T (spans ++ [(s, e, p)]) pos B
        = stageB T spans pos s ++ p ++ pySlice T e B := by
  intro spans
  induction spans with
  | nil => intro pos B; simp [stageB]
  | cons sp rest ih =>
    obtain ⟨a, b, q⟩ := sp
    intro pos B
    simp only [List.cons_append, stageB, List.append_eq, ih, List.append_assoc]

theorem stageB_stage {T : Str} :
    ∀ (spans : List (Nat × Nat × Str)) (pos : Nat),
      stageB T spans pos T.length = stage T spans pos := by
  intro spans
  induction spans with
  | nil =>
    intro pos
    rw [stageB, stage, pySlice]
    exact List.take_of_length_le (by simp)
  | cons sp rest ih =>
    obtain ⟨s, e, p⟩ := sp
    intro pos
    rw [stageB, stage, ih]

theorem spansWfB_append_last {s e : Nat} {p : Str} :
    ∀ {spans : List (Nat × Nat × Str)} {pos : Nat},
      SpansWfB spans pos s → s ≤ e →
      SpansWfB (spans ++ [(s, e, p)]) pos e := by
  intro spans
  induction spans with
  | nil => intro pos h hse; exact ⟨h, hse, Nat.le_refl e⟩
  | cons sp rest ih =>
    obtain ⟨a, b, q⟩ := sp
    intro pos h hse
    exact ⟨h.1, h.2.1, ih h.2.2 hse⟩

theorem spansWfB_weaken :
    ∀ {spans : List (Nat × Nat × Str)} {pos bnd bnd' : Nat},
      SpansWfB spans pos bnd → bnd ≤ bnd' → SpansWfB spans pos bnd' := by
  intro spans
  induction spans with
  | nil => intro pos bnd bnd' h hle; exact le_trans h hle
  | cons sp rest ih =>
    obtain ⟨s, e, p⟩ := sp
    intro pos bnd bnd' h hle
    exact ⟨h.1, h.2.1, ih h.2.2 hle⟩

theorem spansWf_of_spansWfB {T : Str} :
    ∀ {spans : List (Nat × Nat × Str)} {pos bnd : Nat},
      SpansWfB spans pos bnd → bnd ≤ T.length → SpansWf T spans pos := by
  intro spans
  induction spans with
  | nil => intro pos bnd h hle; exact le_trans h hle
  | cons sp rest ih =>
    obtain ⟨s, e, p⟩ := sp
    intro pos bnd h hle
    exact ⟨h.1, h.2.1, ih h.2.2 hle⟩

theorem assignFold_spansWfB :
    ∀ (ds : List Detection) (st : Anonymizer) (B : Nat),
      RevChain ds B → SpansWfB (assignFold st ds).2.1 0 B := by
  intro ds
  induction ds with
  | nil => intro st B _; exact Nat.zero_le B
  | cons d r ih =>
    intro st B h
    obtain ⟨heB, hse, hch⟩ := h
    simp only [assignFold]
    exact spansWfB_weaken
      (spansWfB_append_last (ih _ d.start hch) (Nat.le_of_lt hse)) heB

theorem revChain_of_sorted :
    ∀ (l : List Detection) (B : Nat),
      l.Pairwise (fun a b => a.stop ≤ b.start) →
      (∀ d ∈ l, d.start < d.stop) →
      (∀ d ∈ l, d.stop ≤ B) →
      RevChain l.reverse B := by
  intro l
  induction l using List.reverseRecOn with
  | nil => intro B _ _ _; trivial
  | append_singleton l' d ih =>
    intro B hpw hpos hbnd
    rw [List.reverse_append, List.reverse_singleton, List.singleton_append]
    refine ⟨hbnd d (by simp), hpos d (by simp), ?_⟩
    rw [List.pairwise_append] at hpw
    exact ih d.start hpw.1
      (fun x hx => hpos x (List.mem_append_left _ hx))
      (fun x hx => hpw.2.2 x hx d (by simp))

/-- The substitution loop of `anonymize` (`reversed(detections)`, thread
the working text), run on a text whose first `B` characters agree with
`T`, equals the bounded staging of the spans produced by the
placeholder-assignment fold. -/
theorem substFold_eq {T : Str} :
    ∀ (ds : List Detection) (st : Anonymizer) (acc : List Detection)
      (B : Nat) (suffix : Str),
      RevChain ds B → B ≤ T.length →
      ds.foldl substituteStep (T.take B ++ suffix, st, acc)
        = (stageB T (assignFold st ds).2.1 0 B ++ suffix,
           (assignFold st ds).1,
           (assignFold st ds).2.2 ++ acc) := by
  intro ds
  induction ds with
  | nil =>
    intro st acc B suffix _ _
    simp only [List.foldl_nil, assignFold, stageB, pySlice_zero_take, Nat.sub_zero,
      List.nil_append]
  | cons d r ih =>
    intro st acc B suffix hchain hB
    obtain ⟨heB, hse, hch⟩ := hchain
    have hsB : d.start ≤ B := le_trans (Nat.le_of_lt hse) heB
    rw [List.foldl_cons]
    have hstep : substituteStep (T.take B ++ suffix, st, acc) d
        = (T.take d.start ++
            ((st.getPlaceholder d.value (PREFIXES d.pattern_type)).1 ++
              pySlice T d.stop B ++ suffix),
           { (st.getPlaceholder d.value (PREFIXES d.pattern_type)).2 with
              stats := dput (ptypeValue d.pattern_type) ((pyGet (ptypeValue d.pattern_type) (st.getPlaceholder d.value (PREFIXES d.pattern_type)).2.stats).getD 0 + 1) (st.getPlaceholder d.value (PREFIXES d.pattern_type)).2.stats },
           { d with placeholder := some (st.getPlaceholder d.value (PREFIXES d.pattern_type)).1 } :: acc) := by
      simp only [substituteStep]
      congr 1
      rw [List.take_append_eq_append_take, List.length_take,
        Nat.min_eq_left hB, Nat.sub_eq_zero_of_le hsB, List.take_zero,
        List.append_nil, List.take_take, Nat.min_eq_left hsB]
      rw [List.drop_append_eq_append_drop, List.length_take,
        Nat.min_eq_left hB, Nat.sub_eq_zero_of_le heB, List.drop_zero,
        List.drop_take]
      rw [pySlice]
      simp [List.append_assoc]
    rw [hstep]
    rw [ih _ _ d.start _ hch (le_trans hsB hB)]
    simp only [assignFold]
    rw [stageB_append_last]
    simp [List.append_assoc]

/-! ## Placeholder-assignment fold: registry facts -/

theorem mem_dput {α : Type} {pr : Str × α} {k : Str} {v : α} :
    ∀ {l : List (Str × α)}, pr ∈ dput k v l → pr = (k, v) ∨ pr ∈ l := by
  intro l
  induction l with
  | nil =>
    intro h
    rw [dput] at h
    rcases List.mem_singleton.mp h with he
    exact Or.inl he
  | cons hd tl ih =>
    obtain ⟨k', v'⟩ := hd
    intro h
    rw [dput] at h
    by_cases he : k' = k
    · rw [if_pos he] at h
      rcases List.mem_cons.mp h with h1 | h1
      · exact Or.inl h1
      · exact Or.inr (List.mem_cons_of_mem _ h1)
    · rw [if_neg he] at h
      rcases List.mem_cons.mp h with h1 | h1
      · exact Or.inr (h1 ▸ List.mem_cons_self _ _)
      · rcases ih h1 with h2 | h2
        · exact Or.inl h2
        · exact Or.inr (List.mem_cons_of_mem _ h2)

theorem bracketFree_PREFIXES : ∀ pt, bracketFree (PREFIXES pt) := by
  intro pt
  cases pt <;> exact ⟨by decide, by decide⟩

theorem getPlaceholder_rev_lookup {st : Anonymizer} (hInv : RegInv st)
    (v pfx : Str) :
    pyGet (st.getPlaceholder v pfx).1 (st.getPlaceholder v pfx).2.reverse_mappings
      = some v := by
  cases hq : pyGet v st.mappings with
  | some pl =>
    rw [getPlaceholder_of_some pfx hq]
    exact hInv.rev (v, pl) (mem_of_pyGet hq)
  | none =>
    rw [getPlaceholder_of_none pfx hq]
    exact pyGet_dput_self _ _ _

theorem getPlaceholder_rev_preserved {st : Anonymizer} (hInv : RegInv st)
    {w : Str} {u : Str} (v pfx : Str)
    (h : pyGet w st.reverse_mappings = some u) :
    pyGet w (st.getPlaceholder v pfx).2.reverse_mappings = some u := by
  cases hq : pyGet v st.mappings with
  | some pl => rw [getPlaceholder_of_some pfx hq]; exact h
  | none =>
    rw [getPlaceholder_of_none pfx hq]
    have hfresh := fresh_ph_not_rev_key hInv pfx
    have hne : w ≠ mkPlaceholder pfx ((pyGet pfx st.counters).getD 0 + 1) := by
      intro he
      rw [he, hfresh] at h
      exact Option.noConfusion h
    rw [pyGet_dput_ne _ _ hne]
    exact h

theorem revShaped_getPlaceholder {st : Anonymizer} (hs : RevShaped st)
    {pfx : Str} (hpfx : bracketFree pfx) (v : Str) :
    RevShaped (st.getPlaceholder v pfx).2 := by
  cases hq : pyGet v st.mappings with
  | some pl => rw [getPlaceholder_of_some pfx hq]; exact hs
  | none =>
    rw [getPlaceholder_of_none pfx hq]
    intro pr hpr
    rcases mem_dput hpr with he | hm
    · rw [he]
      exact shapeGood_mkPlaceholder hpfx _
    · exact hs pr hm

theorem regInv_stats {st : Anonymizer} (h : RegInv st) (k : Str) (n : Nat) :
    RegInv { st with stats := dput k n st.stats } :=
  ⟨h.mapKeys, h.mapVals, h.revKeys, h.shape, h.revShape, h.rev⟩

theorem regInv_congr {st st' : Anonymizer} (h : RegInv st)
    (hm : st'.mappings = st.mappings)
    (hr : st'.reverse_mappings = st.reverse_mappings)
    (hc : st'.counters = st.counters) : RegInv st' := by
  refine ⟨?_, ?_, ?_, ?_, ?_, ?_⟩
  · rw [hm]; exact h.mapKeys
  · rw [hm]; exact h.mapVals
  · rw [hr]; exact h.revKeys
  · rw [hm, hc]; exact h.shape
  · rw [hr, hc]; exact h.revShape
  · rw [hm, hr]; exact h.rev

theorem revShaped_congr {st st' : Anonymizer} (h : RevShaped st)
    (hr : st'.reverse_mappings = st.reverse_mappings) : RevShaped st' := by
  intro pr hpr
  rw [hr] at hpr
  exact h pr hpr

/-- Invariants along the placeholder-assignment fold: the registry
invariant and reverse-key shapes persist, existing reverse bindings
persist, and every produced span carries a placeholder-shaped string
bound (in the final reverse map) to the value of the detection the span
came from. -/
theorem assignFold_props :
    ∀ (ds : List Detection) (st : Anonymizer),
      RegInv st → RevShaped st →
      RegInv (assignFold st ds).1 ∧
      RevShaped (assignFold st ds).1 ∧
      (∀ w u : Str, pyGet w st.reverse_mappings = some u →
        pyGet w (assignFold st ds).1.reverse_mappings = some u) ∧
      (∀ sp ∈ (assignFold st ds).2.1, shapeGood sp.2.2 ∧
        ∃ d ∈ ds, d.start = sp.1 ∧ d.stop = sp.2.1 ∧
          pyGet sp.2.2 (assignFold st ds).1.reverse_mappings = some d.value) := by
  intro ds
  induction ds with
  | nil =>
    intro st h1 h2
    exact ⟨h1, h2, fun w u h => h,
      fun sp hsp => absurd hsp (List.not_mem_nil _)⟩
  | cons d r ih =>
    intro st h1 h2
    have hpfx : bracketFree (PREFIXES d.pattern_type) := bracketFree_PREFIXES _
    have hlook := getPlaceholder_rev_lookup h1 d.value (PREFIXES d.pattern_type)
    have h1s : RegInv (st.getPlaceholder d.value (PREFIXES d.pattern_type)).2 :=
      h1.step d.value (PREFIXES d.pattern_type)
    have h2s : RevShaped (st.getPlaceholder d.value (PREFIXES d.pattern_type)).2 :=
      revShaped_getPlaceholder h2 hpfx d.value
    have hshph : shapeGood (st.getPlaceholder d.value (PREFIXES d.pattern_type)).1 :=
      h2s _ (mem_of_pyGet hlook)
    simp only [assignFold]
    obtain ⟨ih1, ih2, ih3, ih4⟩ := ih _ (regInv_stats h1s _ _) h2s
    refine ⟨ih1, ih2, ?_, ?_⟩
    · intro w u h
      exact ih3 w u (getPlaceholder_rev_preserved h1 d.value _ h)
    · intro sp hsp
      rcases List.mem_append.mp hsp with hm | hm
      · obtain ⟨hshape, d', hd', hrest⟩ := ih4 sp hm
        exact ⟨hshape, d', List.mem_cons_of_mem _ hd', hrest⟩
      · rw [List.mem_singleton.mp hm]
        refine ⟨hshph, d, List.mem_cons_self _ _, rfl, rfl, ?_⟩
        exact ih3 _ _ hlook

theorem assignFold_span_map :
    ∀ (ds : List Detection) (st : Anonymizer),
      (assignFold st ds).2.2.map (fun d => (d.start, d.stop))
        = (ds.map (fun d => (d.start, d.stop))).reverse := by
  intro ds
  induction ds with
  | nil => intro st; rfl
  | cons d r ih =>
    intro st
    simp [assignFold, ih]

/-! ## The deanonymization fold -/

/-- Folding `str.replace` over the reverse-mapping entries restores the
original text: placeholders are placeholder-shaped, absent from the
original text, every staged span's placeholder is covered by an entry,
and every matching entry restores the span's original slice. -/
theorem deanon_fold {T : Str} :
    ∀ (entries : List (Str × Str)) (spans : List (Nat × Nat × Str)) (pos : Nat),
      SpansWf T spans pos →
      (∀ sp ∈ spans, shapeGood sp.2.2) →
      (∀ pr ∈ entries, shapeGood pr.1) →
      (∀ pr ∈ entries, ¬ pr.1 <:+: T) →
      (∀ sp ∈ spans, ∃ pr ∈ entries, sp.2.2 = pr.1) →
      (∀ sp ∈ spans, ∀ pr ∈ entries, sp.2.2 = pr.1 → pySlice T sp.1 sp.2.1 = pr.2) →
      entries.foldl (fun res pr => replaceAll res pr.1 pr.2) (stage T spans pos)
        = T.drop pos := by
  intro entries
  induction entries with
  | nil =>
    intro spans pos hwf _ _ _ hcov _
    cases spans with
    | nil => rw [List.foldl_nil, stage]
    | cons sp rest =>
      obtain ⟨pr, hpr, _⟩ := hcov sp (List.mem_cons_self _ _)
      exact absurd hpr (List.not_mem_nil _)
  | cons en rest ih =>
    intro spans pos hwf hshapes hes hni hcov hcons
    rw [List.foldl_cons]
    rw [replaceAll_stage (hes en (List.mem_cons_self _ _))
      (hni en (List.mem_cons_self _ _)) spans pos hwf hshapes
      (fun sp hsp hp => hcons sp hsp en (List.mem_cons_self _ _) hp)]
    refine ih _ pos (spansWf_filter _ hwf)
      (fun sp hsp => hshapes sp (List.mem_of_mem_filter hsp))
      (fun pr hpr => hes pr (List.mem_cons_of_mem _ hpr))
      (fun pr hpr => hni pr (List.mem_cons_of_mem _ hpr)) ?_ ?_
    · intro sp hsp
      have hne : sp.2.2 ≠ en.1 := by
        have := List.of_mem_filter hsp
        simpa using this
      obtain ⟨pr, hpr, hp⟩ := hcov sp (List.mem_of_mem_filter hsp)
      rcases List.mem_cons.mp hpr with he | hm
      · exact absurd (he ▸ hp) hne
      · exact ⟨pr, hm, hp⟩
    · intro sp hsp pr hpr hp
      exact hcons sp (List.mem_of_mem_filter hsp) pr
        (List.mem_cons_of_mem _ hpr) hp

/-! ## Round-trip assembly -/

theorem anonymize_ok {st : Anonymizer} {T : Str} {orc : ReOracle}
    {res : AnonymizationResult} {stF : Anonymizer}
    (h : st.anonymize T orc = .ok (res, stF)) :
    ∃ dets stD, st.detect T orc = .ok (dets, stD) ∧
      res.anonymized_text
        = (dets.reverse.foldl substituteStep (T, { stD with stats := [] }, [])).1 ∧
      res.detections
        = (dets.reverse.foldl substituteStep (T, { stD with stats := [] }, [])).2.2 ∧
      stF = (dets.reverse.foldl substituteStep (T, { stD with stats := [] }, [])).2.1 := by
  cases hdet : st.detect T orc with
  | error e =>
    rw [Anonymizer.anonymize, hdet] at h
    exact absurd h (by simp)
  | ok pr =>
    obtain ⟨dets, stD⟩ := pr
    rw [Anonymizer.anonymize, hdet] at h
    simp only [Except.ok.injEq, Prod.mk.injEq] at h
    refine ⟨dets, stD, rfl, ?_, ?_, h.2.symm⟩
    · rw [← h.1]
    · rw [← h.1]

/-- The state/accumulator components of the substitution loop do not
depend on the working text. -/
theorem substFold_acc :
    ∀ (ds : List Detection) (st : Anonymizer) (t : Str) (acc : List Detection),
      (ds.foldl substituteStep (t, st, acc)).2
        = ((assignFold st ds).1, (assignFold st ds).2.2 ++ acc) := by
  intro ds
  induction ds with
  | nil => intro st t acc; simp [assignFold]
  | cons d r ih =>
    intro st t acc
    rw [List.foldl_cons, substituteStep]
    rw [ih]
    simp only [assignFold]
    rw [List.append_assoc, List.singleton_append]

/-- Round-trip core: from any registry state satisfying the invariants,
staging the (sorted, disjoint, in-text, positive-length) detections and
then folding `str.replace` over the resulting reverse mappings restores
the original text. -/
theorem round_trip_core {T : Str} {st2 : Anonymizer} {dets : List Detection}
    (hreg2 : RegInv st2) (hrev2 : RevShaped st2)
    (hpd : ∀ d ∈ dets, PDet T d)
    (hsort : dets.Pairwise (fun a b => a.start ≤ b.start))
    (hdisj : dets.Pairwise (fun a b => a.stop ≤ b.start ∨ b.stop ≤ a.start))
    (hpos : ∀ d ∈ (assignFold st2 dets.reverse).2.2, d.start < d.stop)
    (hni : ∀ pr ∈ (assignFold st2 dets.reverse).1.reverse_mappings,
      ¬ pr.1 <:+: T) :
    (assignFold st2 dets.reverse).1.deanonymize
      (dets.reverse.foldl substituteStep (T, st2, [])).1 = T := by
  have hmap := assignFold_span_map dets.reverse st2
  rw [List.map_reverse, List.reverse_reverse] at hmap
  have hpos' : ∀ d ∈ dets, d.start < d.stop := by
    intro d hd
    have hmem : (d.start, d.stop) ∈
        (assignFold st2 dets.reverse).2.2.map (fun d => (d.start, d.stop)) := by
      rw [hmap]
      exact List.mem_map.mpr ⟨d, hd, rfl⟩
    obtain ⟨x, hx, hfx⟩ := List.mem_map.mp hmem
    have h1 : x.start = d.start := congrArg Prod.fst hfx
    have h2 : x.stop = d.stop := congrArg Prod.snd hfx
    rw [← h1, ← h2]
    exact hpos x hx
  have hpw : dets.Pairwise (fun a b => a.stop ≤ b.start) := by
    refine List.Pairwise.imp_of_mem ?_ (hsort.and hdisj)
    intro a b ha hb hab
    rcases hab.2 with h | h
    · exact h
    · exact absurd (lt_of_lt_of_le (hpos' b hb) (le_trans h hab.1))
        (lt_irrefl _)
  have hchain : RevChain dets.reverse T.length :=
    revChain_of_sorted dets T.length hpw hpos' (fun d hd => (hpd d hd).2.1)
  have hfold := substFold_eq dets.reverse st2 [] T.length [] hchain
    (Nat.le_refl _)
  rw [List.take_length] at hfold
  simp only [List.append_nil] at hfold
  have hT1 : (dets.reverse.foldl substituteStep (T, st2, [])).1
      = stageB T (assignFold st2 dets.reverse).2.1 0 T.length := by
    rw [hfold]
  rw [hT1, stageB_stage]
  have hAF := assignFold_props dets.reverse st2 hreg2 hrev2
  have hwf : SpansWf T (assignFold st2 dets.reverse).2.1 0 :=
    spansWf_of_spansWfB
      (assignFold_spansWfB dets.reverse st2 T.length hchain) (Nat.le_refl _)
  have hcov : ∀ sp ∈ (assignFold st2 dets.reverse).2.1,
      ∃ pr ∈ (assignFold st2 dets.reverse).1.reverse_mappings,
        sp.2.2 = pr.1 := by
    intro sp hsp
    obtain ⟨_, d, hd, h1, h2, hlook⟩ := hAF.2.2.2 sp hsp
    exact ⟨(sp.2.2, d.value), mem_of_pyGet hlook, rfl⟩
  have hcons : ∀ sp ∈ (assignFold st2 dets.reverse).2.1,
      ∀ pr ∈ (assignFold st2 dets.reverse).1.reverse_mappings,
        sp.2.2 = pr.1 → pySlice T sp.1 sp.2.1 = pr.2 := by
    intro sp hsp pr hpr hp
    obtain ⟨_, d, hd, h1, h2, hlook⟩ := hAF.2.2.2 sp hsp
    have hget : pyGet pr.1 (assignFold st2 dets.reverse).1.reverse_mappings
        = some pr.2 := pyGet_of_mem_nodup hpr hAF.1.revKeys
    rw [hp, hget] at hlook
    injection hlook with hv
    rw [hv, ← h1, ← h2]
    exact ((hpd d (List.mem_reverse.mp hd)).2.2).symm
  have hdeanon := deanon_fold (assignFold st2 dets.reverse).1.reverse_mappings
    (assignFold st2 dets.reverse).2.1 0 hwf
    (fun sp hsp => (hAF.2.2.2 sp hsp).1)
    (fun pr hpr => hAF.2.1 pr hpr) hni hcov hcons
  rw [Anonymizer.deanonymize, hdeanon, List.drop_zero]

/-- C1 (amended).  Round trip: for a registry whose maps were built by
`_get_placeholder` with placeholder-shaped keys, a well-formed regex
oracle and honest enhancer results, if `anonymize(T)` succeeds, every
returned detection has positive length, and no placeholder of the
resulting registry occurs as a substring of `T` itself (the claim's
no-collision condition), then `deanonymize` applied to the returned
`anonymized_text` restores `T` exactly.  The positive-length condition
is a genuine strengthening of the original claim: a custom pattern
whose first capture group participates with an empty match produces a
zero-length detection that desynchronizes the right-to-left
substitution loop, breaking the round trip on collision-free texts (see
the counterexample). -/
theorem C1_round_trip (st : Anonymizer) (T : Str) (orc : ReOracle)
    (res : AnonymizationResult) (stF : Anonymizer)
    (hreg : RegInv st) (hrev : RevShaped st)
    (horc : orc.Wf T.length) (henh : ∀ r ∈ orc.enh, EnhWf T r)
    (hrun : st.anonymize T orc = .ok (res, stF))
    (hpos : ∀ d ∈ res.detections, d.start < d.stop)
    (hni : ∀ pr ∈ stF.reverse_mappings, ¬ pr.1 <:+: T) :
    stF.deanonymize res.anonymized_text = T := by
  obtain ⟨dets, stD, hdet, hresT, hresD, hstF⟩ := anonymize_ok hrun
  have hflds := detect_state_fields hdet
  have hreg2 : RegInv ({ stD with stats := ([] : List (Str × Nat)) } : Anonymizer) :=
    regInv_congr hreg hflds.1 hflds.2.1 hflds.2.2.1
  have hrev2 : RevShaped ({ stD with stats := ([] : List (Str × Nat)) } : Anonymizer) :=
    revShaped_congr hrev hflds.2.1
  have hacc := substFold_acc dets.reverse
    ({ stD with stats := ([] : List (Str × Nat)) } : Anonymizer) T []
  have hacc1 : (dets.reverse.foldl substituteStep
      (T, ({ stD with stats := ([] : List (Str × Nat)) } : Anonymizer), [])).2.1
      = (assignFold ({ stD with stats := ([] : List (Str × Nat)) } : Anonymizer)
          dets.reverse).1 := by
    rw [hacc]
  have hacc2 : (dets.reverse.foldl substituteStep
      (T, ({ stD with stats := ([] : List (Str × Nat)) } : Anonymizer), [])).2.2
      = (assignFold ({ stD with stats := ([] : List (Str × Nat)) } : Anonymizer)
          dets.reverse).2.2 := by
    rw [hacc, List.append_nil]
  rw [hstF, hacc1] at hni
  rw [hresD, hacc2] at hpos
  rw [hresT, hstF, hacc1]
  exact round_trip_core hreg2 hrev2 (detect_pdet horc henh hdet)
    (detect_sorted_disjoint hdet).1 (detect_sorted_disjoint hdet).2 hpos hni

/-- Counterexample to C1 as stated: on the text `"ab"` — which contains
no placeholder-shaped substring at all — an engine with custom patterns
`ab` and `()a` (the second matching via an *empty* first capture group,
hence a zero-length detection at position 0) anonymizes successfully,
yet deanonymizing the result does not restore `"ab"`: the zero-length
span desynchronizes the right-to-left substitution, leaving the
fragment `AL_001]` of a placeholder in the final text. -/
theorem C1_counterexample :
    ∃ res stF,
      ({ Anonymizer.init with custom_patterns := [("ab".toList, "A".toList), ("()a".toList, "B".toList)] } : Anonymizer).anonymize
          "ab".toList
          { catalog := fun _ => [], custom := [some [⟨(0, 2), []⟩], some [⟨(0, 1), [some (0, 0)]⟩]] }
        = .ok (res, stF) ∧
      (∀ pr ∈ stF.reverse_mappings, ¬ pr.1 <:+: "ab".toList) ∧
      stF.deanonymize res.anonymized_text ≠ "ab".toList := by
  refine ⟨_, _, rfl, ?_, ?_⟩
  · decide
  · decide

/-- Witness for C1: a concrete run with one custom pattern `ab` on the
text `"ab"`; anonymization yields `"[VAL_001]"` and deanonymization
restores `"ab"`. -/
theorem C1_witness :
    (⟨[("ab".toList, "[VAL_001]".toList)], [("[VAL_001]".toList, "ab".toList)],
      [("VAL".toList, 1)], [("custom".toList, 1)], fun _ => true,
      [("ab".toList, "X".toList)], [], [(0, "X".toList)]⟩ : Anonymizer).deanonymize
        "[VAL_001]".toList = "ab".toList :=
  C1_round_trip
    { Anonymizer.init with custom_patterns := [("ab".toList, "X".toList)] }
    "ab".toList
    { catalog := fun _ => [], custom := [some [⟨(0, 2), []⟩]] }
    ⟨"[VAL_001]".toList, [("ab".toList, "[VAL_001]".toList)],
      [("custom".toList, 1)],
      [⟨"ab".toList, CUSTOM, 0, 2, some "[VAL_001]".toList⟩]⟩
    ⟨[("ab".toList, "[VAL_001]".toList)], [("[VAL_001]".toList, "ab".toList)],
      [("VAL".toList, 1)], [("custom".toList, 1)], fun _ => true,
      [("ab".toList, "X".toList)], [], [(0, "X".toList)]⟩
    (regInv_congr RegInv.init rfl rfl rfl)
    (fun _ hpr => absurd hpr (List.not_mem_nil _))
    ⟨fun _ _ hm => absurd hm (List.not_mem_nil _),
     by
      intro o ho ms hms m hm
      rw [List.mem_singleton] at ho
      subst ho
      injection hms with hms
      subst hms
      rw [List.mem_singleton] at hm
      subst hm
      exact ⟨by decide, by decide, by decide⟩⟩
    (fun _ hr => absurd hr (List.not_mem_nil _))
    rfl
    (by decide)
    (by decide)
